import Mathlib

/-!
Image colour picker and painter (`src/A5/a5.c`)

A shallow embedding of the core of the GTK colour picker / painter tool:
the letterbox coordinate mapping, the circular brush stamp on the raw pixel
buffer, and the undo / redo history of full-buffer snapshots.

Modelling conventions

* C `int` values are `Int`; signed overflow is undefined behaviour in C and is
  outside the model (every concrete input used below is far from the 32-bit
  range).  C integer division truncates toward zero (`Int.tdiv`); a division
  by zero is a crash of the process and is modelled by `none`.
* C `double` values are modelled exactly by `Dbl`: the finite non-negative
  doubles are `mant * 2 ^ exp`, every arithmetic operation rounds the exact
  result to 53 significant bits, ties to even, as IEEE 754 prescribes.  The
  exponent range of binary64 is not modelled; no operand built from 32-bit
  integers leaves it.
* A `GdkPixbuf` is a record of its metadata and its bytes.  A `GdkPixbuf *`
  that may be `NULL` is an `Option Pixbuf`.  `gdk_pixbuf_copy` allocates a
  fresh buffer with the same metadata and bytes, so on values it is the
  identity; the live buffer and the history entries are never aliased in the
  source (a popped entry is unlinked from its list before it becomes the live
  buffer), which is what value semantics expresses.
* A byte access outside the pixel array is undefined behaviour and is
  modelled by `none`.
* GTK side effects that do not feed back into the state (labels, CSS, texture
  refresh, `g_print`) are not modelled.
-/

namespace A5

/-! ## Doubles -/

/-- Number of binary digits of `n` minus one (`⌊log₂ n⌋`, and `0` for `n ≤ 1`), by halving. -/
def ilog2Fuel : Nat → Nat → Nat
  | 0, _ => 0
  | fuel + 1, n => if 2 ≤ n then ilog2Fuel fuel (n / 2) + 1 else 0

/-- Floor of the binary logarithm. -/
def ilog2 (n : Nat) : Nat := ilog2Fuel n n

/-- Integer square root by the digit recurrence `√n = 2·√(n/4) (+1)`. -/
def isqrtFuel : Nat → Nat → Nat
  | 0, n => n
  | fuel + 1, n =>
    if n < 2 then n
    else
      let s := 2 * isqrtFuel fuel (n / 4)
      if (s + 1) * (s + 1) ≤ n then s + 1 else s

/-- Floor of the square root. -/
def isqrt (n : Nat) : Nat := isqrtFuel n n

/-- The values a C `double` takes in this program: a finite non-negative number
`mant * 2 ^ exp`, `+∞`, or NaN. -/
inductive Dbl where
  | fin (mant : Nat) (exp : Int)
  | inf
  | nan
deriving DecidableEq, Repr

namespace Dbl

/-- Round the positive rational `a / b * 2 ^ e` to 53 significant bits, ties to even. -/
def round (a b : Nat) (e : Int) : Dbl :=
  if a = 0 then fin 0 0
  else
    let t0 : Int := 52 + (ilog2 b : Int) - (ilog2 a : Int)
    let A0 := a * 2 ^ t0.toNat
    let B := b * 2 ^ (-t0).toNat
    let t : Int := if A0 / B < 2 ^ 52 then t0 + 1 else t0
    let A := if A0 / B < 2 ^ 52 then 2 * A0 else A0
    let q := A / B
    let r := A % B
    let m := if B < 2 * r ∨ (2 * r = B ∧ q % 2 = 1) then q + 1 else q
    fin m (e - t)

/-- Conversion `(double)n` of a non-negative integer. -/
def ofNat (n : Nat) : Dbl := round n 1 0

/-- Division `x / y` of doubles. -/
def div : Dbl → Dbl → Dbl
  | fin m1 e1, fin m2 e2 =>
    if m2 = 0 then (if m1 = 0 then nan else inf) else round m1 m2 (e1 - e2)
  | fin _ _, inf => fin 0 0
  | inf, fin _ _ => inf
  | _, _ => nan

/-- Product `x * y` of doubles. -/
def mul : Dbl → Dbl → Dbl
  | fin m1 e1, fin m2 e2 => round (m1 * m2) 1 (e1 + e2)
  | fin m _, inf => if m = 0 then nan else inf
  | inf, fin m _ => if m = 0 then nan else inf
  | inf, inf => inf
  | _, _ => nan

/-- Comparison `x <= y` of doubles (false when either is NaN). -/
def le : Dbl → Dbl → Bool
  | fin m1 e1, fin m2 e2 =>
    decide (m1 * 2 ^ (e1 - min e1 e2).toNat ≤ m2 * 2 ^ (e2 - min e1 e2).toNat)
  | fin _ _, inf => true
  | inf, inf => true
  | _, _ => false

/-- Comparison `x > y` of doubles (false when either is NaN). -/
def gt : Dbl → Dbl → Bool
  | fin m1 e1, fin m2 e2 =>
    decide (m2 * 2 ^ (e2 - min e1 e2).toNat < m1 * 2 ^ (e1 - min e1 e2).toNat)
  | inf, fin _ _ => true
  | _, _ => false

/-- Conversion `(int)x`: truncation; undefined (`none`) for `+∞` and NaN. -/
def toInt : Dbl → Option Int
  | fin m e => some (((m * 2 ^ e.toNat) / 2 ^ (-e).toNat : Nat) : Int)
  | _ => none

/-- Correctly rounded `sqrt(x)` for the operands the program passes, which are
integers converted to `double` (mantissa below `2 ^ 53`, so the shift below is
never negative). -/
def sqrt : Dbl → Dbl
  | fin m e =>
    if m = 0 then fin 0 0
    else
      let k : Int := 52 - ((ilog2 m : Int) + e) / 2
      let N := m * 2 ^ (e + 2 * k).toNat
      let s := isqrt N
      fin (if s < N - s * s then s + 1 else s) (-k)
  | inf => inf
  | nan => nan

end Dbl

/-! ## Pixel buffer and application state -/

/-- A `guint8` / `guchar`. -/
abbrev Byte := Fin 256

/-- A `GdkPixbuf`: width, height, row stride and channel count as the accessors
`gdk_pixbuf_get_*` return them, and the byte array behind `gdk_pixbuf_get_pixels`. -/
structure Pixbuf where
  width : Nat
  height : Nat
  rowstride : Nat
  n_channels : Nat
  pixels : List Byte
deriving DecidableEq, Repr

/-- The struct `AppData`.  `widget_width` and `widget_height` are what
`gtk_widget_get_width(data->picture)` and `gtk_widget_get_height(data->picture)`
return; `x_entry` and `y_entry` are the texts of the two entry widgets. -/
structure AppData where
  widget_width : Nat
  widget_height : Nat
  x_entry : List Char
  y_entry : List Char
  pixbuf : Option Pixbuf
  selected_r : Byte
  selected_g : Byte
  selected_b : Byte
  painting : Bool
  paint_mode : Bool
  brush_size : Int
  undo_stack : List (Option Pixbuf)
  redo_stack : List (Option Pixbuf)
deriving DecidableEq, Repr

/-- The function `gdk_pixbuf_copy`: a fresh pixbuf with the same metadata and bytes
(`NULL` for `NULL`). -/
def gdk_pixbuf_copy (p : Option Pixbuf) : Option Pixbuf := p

/-- C integer division `a / b`: truncation toward zero, a crash when `b = 0`. -/
def cdiv (a b : Int) : Option Int := if b = 0 then none else some (a.tdiv b)

/-- Read `pixels[off]`. -/
def peek (pixels : List Byte) (off : Int) : Option Byte :=
  if 0 ≤ off then pixels[off.toNat]? else none

/-- Write `pixels[off] = v`. -/
def poke (pixels : List Byte) (off : Int) (v : Byte) : Option (List Byte) :=
  if 0 ≤ off ∧ off.toNat < pixels.length then some (pixels.set off.toNat v) else none

/-- The integers `lo, lo + 1, ..., hi` visited by `for (i = lo; i <= hi; i++)`. -/
def intRange (lo hi : Int) : List Int :=
  (List.range (hi + 1 - lo).toNat).map fun (i : Nat) => lo + (i : Int)

/-! ## Coordinate mapping (lines 73-107 and 158-188) -/

/-- The test `img_aspect > widget_aspect` of lines 79-84 and 164-168. -/
def img_wider (img_width img_height widget_width widget_height : Nat) : Bool :=
  Dbl.gt (Dbl.div (Dbl.ofNat img_width) (Dbl.ofNat img_height))
    (Dbl.div (Dbl.ofNat widget_width) (Dbl.ofNat widget_height))

/-- Lines 86-87: `scale = (double)widget_width / img_width;
scaled_height = (int)(img_height * scale)`. -/
def scaled_height (img_width img_height widget_width : Nat) : Option Int :=
  Dbl.toInt (Dbl.mul (Dbl.ofNat img_height) (Dbl.div (Dbl.ofNat widget_width) (Dbl.ofNat img_width)))

/-- Lines 94-95: `scale = (double)widget_height / img_height;
scaled_width = (int)(img_width * scale)`. -/
def scaled_width (img_width img_height widget_height : Nat) : Option Int :=
  Dbl.toInt (Dbl.mul (Dbl.ofNat img_width) (Dbl.div (Dbl.ofNat widget_height) (Dbl.ofNat img_height)))

/-- Lines 88 and 96: `(widget_extent - scaled_extent) / 2`. -/
def letterbox_offset (widget_extent : Nat) (scaled_extent : Int) : Int :=
  ((widget_extent : Int) - scaled_extent).tdiv 2

/-- Lines 79-100 of `get_color_at_coordinates`: the image coordinate `(px, py)` computed
for the widget point `(x, y)`; `none` when the computation divides by zero. -/
def get_color_at_coordinates_map (img_width img_height widget_width widget_height : Nat)
    (x y : Int) : Option (Int × Int) :=
  if img_wider img_width img_height widget_width widget_height then
    (scaled_height img_width img_height widget_width).bind fun sh =>
    let y_offset := letterbox_offset widget_height sh
    (cdiv (x * img_width) widget_width).bind fun px =>
    (cdiv ((y - y_offset) * img_height) sh).bind fun py =>
    some (px, py)
  else
    (scaled_width img_width img_height widget_height).bind fun sw =>
    let x_offset := letterbox_offset widget_width sw
    (cdiv ((x - x_offset) * img_width) sw).bind fun px =>
    (cdiv (y * img_height) widget_height).bind fun py =>
    some (px, py)

/-- Lines 164-183 of `paint_brush`: the same computation, written out a second time
in the source. -/
def paint_brush_map (img_width img_height widget_width widget_height : Nat)
    (x y : Int) : Option (Int × Int) :=
  if img_wider img_width img_height widget_width widget_height then
    (scaled_height img_width img_height widget_width).bind fun sh =>
    let y_offset := letterbox_offset widget_height sh
    (cdiv (x * img_width) widget_width).bind fun px =>
    (cdiv ((y - y_offset) * img_height) sh).bind fun py =>
    some (px, py)
  else
    (scaled_width img_width img_height widget_height).bind fun sw =>
    let x_offset := letterbox_offset widget_width sw
    (cdiv ((x - x_offset) * img_width) sw).bind fun px =>
    (cdiv (y * img_height) widget_height).bind fun py =>
    some (px, py)

/-- Outcome of the mapping followed by the range check of lines 103 and 185. -/
inductive Target where
  | pixel (px py : Int)
  | out_of_bounds
deriving DecidableEq, Repr

/-- The check `px < 0 || py < 0 || px >= img_width || py >= img_height`. -/
def range_check (img_width img_height : Nat) (p : Int × Int) : Target :=
  if p.1 < 0 ∨ p.2 < 0 ∨ p.1 ≥ img_width ∨ p.2 ≥ img_height then Target.out_of_bounds
  else Target.pixel p.1 p.2

/-- Lines 73-107 of `get_color_at_coordinates`: mapping and range check. -/
def get_color_at_coordinates_target (img_width img_height widget_width widget_height : Nat)
    (x y : Int) : Option Target :=
  (get_color_at_coordinates_map img_width img_height widget_width widget_height x y).map
    (range_check img_width img_height)

/-- Lines 158-188 of `paint_brush`: mapping and range check. -/
def paint_brush_target (img_width img_height widget_width widget_height : Nat)
    (x y : Int) : Option Target :=
  (paint_brush_map img_width img_height widget_width widget_height x y).map
    (range_check img_width img_height)

/-! ## Colour sampling -/

/-- Lines 109-115: `pixel = pixels + py * rowstride + px * n_channels` and the read of
`pixel[0]`, `pixel[1]`, `pixel[2]`. -/
def rgb_at (pb : Pixbuf) (px py : Int) : Option (Byte × Byte × Byte) :=
  let off := py * pb.rowstride + px * pb.n_channels
  match peek pb.pixels off, peek pb.pixels (off + 1), peek pb.pixels (off + 2) with
  | some r, some g, some b => some (r, g, b)
  | _, _, _ => none

/-- The function `get_color_at_coordinates` (lines 67-130). -/
def get_color_at_coordinates (data : AppData) (x y : Int) : Option AppData :=
  match data.pixbuf with
  | none => some data
  | some pb =>
    match get_color_at_coordinates_target pb.width pb.height data.widget_width
        data.widget_height x y with
    | none => none
    | some Target.out_of_bounds => some data
    | some (Target.pixel px py) =>
      match rgb_at pb px py with
      | some (r, g, b) => some { data with selected_r := r, selected_g := g, selected_b := b }
      | none => none

/-- The function `g_ascii_isdigit`: the characters `0` to `9` (codes 48 to 57). -/
def g_ascii_isdigit (c : Char) : Bool := decide (48 ≤ c.toNat ∧ c.toNat ≤ 57)

/-- The function `atoi` on a text that starts with a digit (the only texts that pass
the guard of line 45): the value of the leading run of digits. -/
def atoi (s : List Char) : Int :=
  (((s.takeWhile g_ascii_isdigit).foldl (fun acc c => 10 * acc + (c.toNat - 48)) 0 : Nat) : Int)

/-- The function `on_get_color_clicked` (lines 40-65).  Without an image
`gdk_pixbuf_get_width` returns `-1`, so the range check of line 57 fails. -/
def on_get_color_clicked (data : AppData) : Option AppData :=
  if !((data.x_entry.head?.map g_ascii_isdigit).getD false)
      || !((data.y_entry.head?.map g_ascii_isdigit).getD false) then some data
  else
    let x := atoi data.x_entry
    let y := atoi data.y_entry
    match data.pixbuf with
    | none => some data
    | some pb =>
      if x < 0 ∨ y < 0 ∨ x ≥ pb.width ∨ y ≥ pb.height then some data
      else get_color_at_coordinates data x y

/-! ## History -/

/-- The function `save_undo_state` (lines 132-148). -/
def save_undo_state (data : AppData) : AppData :=
  match data.pixbuf with
  | none => data
  | some pb =>
    { data with
      undo_stack := gdk_pixbuf_copy (some pb) :: data.undo_stack
      redo_stack := [] }

/-- The function `on_undo_clicked` (lines 224-250). -/
def on_undo_clicked (data : AppData) : AppData :=
  match data.undo_stack with
  | [] => data
  | previous_state :: rest =>
    { data with
      redo_stack := gdk_pixbuf_copy data.pixbuf :: data.redo_stack
      undo_stack := rest
      pixbuf := previous_state }

/-- The function `on_redo_clicked` (lines 252-278). -/
def on_redo_clicked (data : AppData) : AppData :=
  match data.redo_stack with
  | [] => data
  | next_state :: rest =>
    { data with
      undo_stack := gdk_pixbuf_copy data.pixbuf :: data.undo_stack
      redo_stack := rest
      pixbuf := next_state }

/-! ## Brush -/

/-- Lines 205-211: the clipped write of one pixel, three bytes at
`ny * rowstride + nx * n_channels`. -/
def stamp_pixel (pb : Pixbuf) (nx ny : Int) (r g b : Byte) : Option Pixbuf :=
  if nx ≥ 0 ∧ ny ≥ 0 ∧ nx < pb.width ∧ ny < pb.height then
    let offset := ny * pb.rowstride + nx * pb.n_channels
    (poke pb.pixels offset r).bind fun p1 =>
    (poke p1 (offset + 1) g).bind fun p2 =>
    (poke p2 (offset + 2) b).bind fun p3 =>
    some { pb with pixels := p3 }
  else some pb

/-- Line 200: `sqrt(dx * dx + dy * dy) <= radius`.  Both sides are non-negative
whenever the loop body runs. -/
def in_disc (dx dy radius : Int) : Bool :=
  Dbl.le (Dbl.sqrt (Dbl.ofNat (dx * dx + dy * dy).toNat)) (Dbl.ofNat radius.toNat)

/-- Lines 198-213: the inner loop over `dx` for one `dy`. -/
def stamp_row (px py radius : Int) (r g b : Byte) (dy : Int) (pb : Pixbuf) : Option Pixbuf :=
  (intRange (-radius) radius).foldlM
    (fun acc dx => if in_disc dx dy radius then stamp_pixel acc (px + dx) (py + dy) r g b
      else some acc) pb

/-- Lines 196-214: the stamp loop of `paint_brush`. -/
def stamp_loop (pb : Pixbuf) (px py radius : Int) (r g b : Byte) : Option Pixbuf :=
  (intRange (-radius) radius).foldlM (fun acc dy => stamp_row px py radius r g b dy acc) pb

/-- The function `paint_brush` (lines 150-222). -/
def paint_brush (data : AppData) (x y : Int) : Option AppData :=
  match data.pixbuf with
  | none => some data
  | some pb =>
    let saved := save_undo_state data
    match paint_brush_target pb.width pb.height data.widget_width data.widget_height x y with
    | none => none
    | some Target.out_of_bounds => some saved
    | some (Target.pixel px py) =>
      let radius := data.brush_size.tdiv 2
      match stamp_loop pb px py radius data.selected_r data.selected_g data.selected_b with
      | none => none
      | some pb1 => some { saved with pixbuf := some pb1 }

/-- The function `paint_pixel` (lines 314-347). -/
def paint_pixel (data : AppData) (x y : Int) : Option AppData :=
  match data.pixbuf with
  | none => some data
  | some pb =>
    if x < 0 ∨ y < 0 ∨ x ≥ pb.width ∨ y ≥ pb.height then some data
    else
      let off := y * pb.rowstride + x * pb.n_channels
      (poke pb.pixels off data.selected_r).bind fun p1 =>
      (poke p1 (off + 1) data.selected_g).bind fun p2 =>
      (poke p2 (off + 2) data.selected_b).bind fun p3 =>
      some { data with pixbuf := some { pb with pixels := p3 } }

/-! ## Event handlers -/

/-- The function `on_mouse_press` (lines 280-293); `(x, y)` is `((int)x, (int)y)`. -/
def on_mouse_press (data : AppData) (x y : Int) : Option AppData :=
  if data.paint_mode then paint_brush { data with painting := true } x y
  else get_color_at_coordinates data x y

/-- The function `on_mouse_release` (lines 295-300). -/
def on_mouse_release (data : AppData) : AppData := { data with painting := false }

/-- The function `on_mouse_motion` (lines 302-312); `(x, y)` is `((int)x, (int)y)`. -/
def on_mouse_motion (data : AppData) (x y : Int) : Option AppData :=
  if data.painting && data.paint_mode then paint_brush data x y else some data

/-- The function `on_paint_button_clicked` (lines 371-389). -/
def on_paint_button_clicked (data : AppData) : AppData :=
  let toggled := { data with paint_mode := !data.paint_mode }
  if toggled.paint_mode then toggled else { toggled with painting := false }

/-- The function `on_brush_size_changed` (lines 391-396); `value` is
`(int)gtk_range_get_value(range)`. -/
def on_brush_size_changed (data : AppData) (value : Int) : AppData :=
  { data with brush_size := value }

/-! ## Notions used by the statements -/

/-- The layout invariant of an image: at least three channels, rows of `width` pixels
fit in the row stride, and the byte array holds `height` rows. -/
def Pixbuf.wf (pb : Pixbuf) : Prop :=
  3 ≤ pb.n_channels ∧ pb.width * pb.n_channels ≤ pb.rowstride ∧
    pb.height * pb.rowstride ≤ pb.pixels.length

instance (pb : Pixbuf) : Decidable pb.wf := by unfold Pixbuf.wf; infer_instance

/-- A stroke: pointer press at `press`, one motion event per element of `moves`,
pointer release. -/
def stroke (data : AppData) (press : Int × Int) (moves : List (Int × Int)) : Option AppData :=
  (on_mouse_press data press.1 press.2).bind fun s1 =>
  (moves.foldlM (fun acc m => on_mouse_motion acc m.1 m.2) s1).bind fun s2 =>
  some (on_mouse_release s2)

/-- A 2×2 RGB image without row padding: red, blue / green, grey. -/
def img2 : Pixbuf :=
  { width := 2, height := 2, rowstride := 6, n_channels := 3,
    pixels := [255, 0, 0, 0, 0, 255, 0, 255, 0, 9, 9, 9] }

/-- A session showing `img2` in a 4×2 picture widget (letterbox bars of width 1 left and
right), with the entry texts `1` and `0`, selected colour (7,7,7) and brush size 0. -/
def session2 (painting paint_mode : Bool) : AppData :=
  { widget_width := 4, widget_height := 2, x_entry := ['1'], y_entry := ['0'],
    pixbuf := some img2, selected_r := 7, selected_g := 7, selected_b := 7,
    painting := painting, paint_mode := paint_mode, brush_size := 0,
    undo_stack := [], redo_stack := [] }

/-- A black 10×10 RGB image without row padding. -/
def img10 : Pixbuf :=
  { width := 10, height := 10, rowstride := 30, n_channels := 3,
    pixels := List.replicate 300 0 }

/-- The byte array after the three writes `pixels[o] = r; pixels[o + 1] = g;
pixels[o + 2] = b` of lines 208-210. -/
def set_rgb (p : List Byte) (o : Nat) (r g b : Byte) : List Byte :=
  ((p.set o r).set (o + 1) g).set (o + 2) b

/-- Two pixbufs with the same metadata and the same number of bytes. -/
def SameShape (p q : Pixbuf) : Prop :=
  q.width = p.width ∧ q.height = p.height ∧ q.rowstride = p.rowstride ∧
    q.n_channels = p.n_channels ∧ q.pixels.length = p.pixels.length

/-- The pixbuf `q` is `p` with the pixels selected by `S` set to the colour `c`: every
in-bounds pixel in `S` reads `c` in `q`, every other in-bounds pixel reads as in `p`. -/
def Painted (c : Byte × Byte × Byte) (S : Int → Int → Prop) (p q : Pixbuf) : Prop :=
  SameShape p q ∧
    ∀ x y : Int, 0 ≤ x → x < p.width → 0 ≤ y → y < p.height →
      (S x y → rgb_at q x y = some c) ∧ (¬ S x y → rgb_at q x y = rgb_at p x y)

/-- One execution of lines 207-210 at the pixel `t = (nx, ny)`: the byte array after the
three writes from offset `ny * rowstride + nx * n_channels`. -/
def write_rgb (rowstride n_channels : Nat) (r g b : Byte) (p : List Byte) (t : Int × Int) :
    List Byte :=
  set_rgb p (t.2 * rowstride + t.1 * n_channels).toNat r g b

/-- The pixels `(nx, ny)` for which the stamp loop of lines 196-214 executes the writes of
lines 207-210, in the order of the loop: `dy` outer, `dx` inner, the tests of lines 200
and 205 passed. -/
def stamp_targets (pb : Pixbuf) (px py radius : Int) : List (Int × Int) :=
  (intRange (-radius) radius).flatMap fun dy =>
    (intRange (-radius) radius).flatMap fun dx =>
      if in_disc dx dy radius = true ∧
          (px + dx ≥ 0 ∧ py + dy ≥ 0 ∧ px + dx < pb.width ∧ py + dy < pb.height) then
        [(px + dx, py + dy)]
      else []

/-- Line 194: `radius = data->brush_size / 2`. -/
def brush_radius (data : AppData) : Int := data.brush_size.tdiv 2

/-- The state `main` and `on_app_activate` hand to the event loop: `AppData data = {0}`,
then `load_image` (giving `pixbuf`, `NULL` when loading fails).  The slider is set to 10
on line 479, before `on_brush_size_changed` is connected on line 481, so `brush_size`
keeps its zero.  The widget size is what GTK allocates to the picture. -/
def initial_state (widget_width widget_height : Nat) (pixbuf : Option Pixbuf) : AppData :=
  { widget_width := widget_width, widget_height := widget_height, x_entry := [], y_entry := [],
    pixbuf := pixbuf, selected_r := 0, selected_g := 0, selected_b := 0,
    painting := false, paint_mode := false, brush_size := 0,
    undo_stack := [], redo_stack := [] }

/-- The signals connected in `on_app_activate` that reach the modelled state. -/
inductive Event where
  | press (x y : Int)
  | release
  | motion (x y : Int)
  | paint_button
  | undo
  | redo
  | get_color
  | brush_size (value : Int)
deriving DecidableEq, Repr

/-- Dispatch of one event to its handler. -/
def step (data : AppData) : Event → Option AppData
  | Event.press x y => on_mouse_press data x y
  | Event.release => some (on_mouse_release data)
  | Event.motion x y => on_mouse_motion data x y
  | Event.paint_button => some (on_paint_button_clicked data)
  | Event.undo => some (on_undo_clicked data)
  | Event.redo => some (on_redo_clicked data)
  | Event.get_color => on_get_color_clicked data
  | Event.brush_size value => some (on_brush_size_changed data value)

/-- The event loop on a list of events. -/
def run (data : AppData) (events : List Event) : Option AppData :=
  events.foldlM step data

/-- The letterbox mapping with the branch taken and the two scaled extents left open:
`y_offset = (Vh - scaledH) / 2`, `ix = px * Iw / Vw`, `iy = (py - y_offset) * Ih / scaledH`
in the top/bottom case, symmetrically in the left/right case, all divisions truncating. -/
def letterbox_map (wider : Bool) (scaledH scaledW : Option Int) (Iw Ih Vw Vh : Nat)
    (px py : Int) : Option (Int × Int) :=
  if wider then
    scaledH.bind fun sh =>
    (cdiv (px * Iw) Vw).bind fun ix =>
    (cdiv ((py - ((Vh : Int) - sh).tdiv 2) * Ih) sh).bind fun iy =>
    some (ix, iy)
  else
    scaledW.bind fun sw =>
    (cdiv ((px - ((Vw : Int) - sw).tdiv 2) * Iw) sw).bind fun ix =>
    (cdiv (py * Ih) Vh).bind fun iy =>
    some (ix, iy)

/-- The integer nearest to `a * b / c` (halves upward). -/
def round_nearest (a b c : Nat) : Int := (((2 * a * b + c) / (2 * c) : Nat) : Int)

/-- The reference algorithm as the specification words it: the branch by the exact
comparison `Iw / Ih > Vw / Vh`, `scaledH = round(Ih * Vw / Iw)` and
`scaledW = round(Iw * Vh / Ih)` rounded to the nearest integer. -/
def spec_map (Iw Ih Vw Vh : Nat) (px py : Int) : Option (Int × Int) :=
  letterbox_map (decide (Vw * Ih < Iw * Vh)) (some (round_nearest Ih Vw Iw))
    (some (round_nearest Iw Vh Ih)) Iw Ih Vw Vh px py

/-- The reference algorithm with the scaled extents as the source computes them: the
branch by the comparison of the two `double` quotients, `scaledH = (int)(Ih * scale)` and
`scaledW = (int)(Iw * scale)` truncated from the `double` product. -/
def trunc_map (Iw Ih Vw Vh : Nat) (px py : Int) : Option (Int × Int) :=
  letterbox_map (img_wider Iw Ih Vw Vh) (scaled_height Iw Ih Vw) (scaled_width Iw Ih Vh)
    Iw Ih Vw Vh px py

/-- The session `session2` after an undo: one entry on the redo stack. -/
def session2_redo (painting paint_mode : Bool) : AppData :=
  { session2 painting paint_mode with redo_stack := [some img2] }

/-- Whether the mapping followed by the range check produced an image pixel (neither
a division by zero nor the out-of-bounds outcome). -/
def hits_pixel : Option Target → Bool
  | some (Target.pixel _ _) => true
  | _ => false

set_option maxRecDepth 100000

/-! ## Arithmetic of the double model -/

theorem ilog2Fuel_spec (fuel : Nat) : ∀ n : Nat, n ≤ fuel → n ≠ 0 →
    2 ^ ilog2Fuel fuel n ≤ n ∧ n < 2 ^ (ilog2Fuel fuel n + 1) := by
  induction fuel with
  | zero => intro n h0 h1; omega
  | succ f ih =>
    intro n hle hne
    unfold ilog2Fuel
    by_cases h2 : 2 ≤ n
    · rw [if_pos h2]
      obtain ⟨ha, hb⟩ := ih (n / 2) (by omega) (by omega)
      rw [pow_succ, pow_succ]
      rw [pow_succ] at hb
      constructor <;> omega
    · rw [if_neg h2]
      have : n = 1 := by omega
      subst this
      simp

theorem ilog2_spec (n : Nat) (hne : n ≠ 0) : 2 ^ ilog2 n ≤ n ∧ n < 2 ^ (ilog2 n + 1) :=
  ilog2Fuel_spec n n le_rfl hne

theorem ilog2_unique (n a : Nat) (h1 : 2 ^ a ≤ n) (h2 : n < 2 ^ (a + 1)) : ilog2 n = a := by
  have hne : n ≠ 0 := by
    have : 0 < 2 ^ a := Nat.pow_pos (by norm_num)
    omega
  obtain ⟨s1, s2⟩ := ilog2_spec n hne
  have ha : a < ilog2 n + 1 := (Nat.pow_lt_pow_iff_right (by norm_num : 1 < 2)).1 (lt_of_le_of_lt h1 s2)
  have hb : ilog2 n < a + 1 := (Nat.pow_lt_pow_iff_right (by norm_num : 1 < 2)).1 (lt_of_le_of_lt s1 h2)
  omega

theorem isqrtFuel_spec (fuel : Nat) : ∀ n : Nat, n ≤ fuel →
    isqrtFuel fuel n * isqrtFuel fuel n ≤ n ∧
      n < (isqrtFuel fuel n + 1) * (isqrtFuel fuel n + 1) := by
  induction fuel with
  | zero =>
    intro n h
    have : n = 0 := by omega
    subst this
    simp [isqrtFuel]
  | succ f ih =>
    intro n hle
    unfold isqrtFuel
    by_cases h2 : n < 2
    · rw [if_pos h2]
      have : n = 0 ∨ n = 1 := by omega
      rcases this with rfl | rfl <;> simp
    · rw [if_neg h2]
      obtain ⟨ha, hb⟩ := ih (n / 4) (by omega)
      generalize isqrtFuel f (n / 4) = r at ha hb ⊢
      simp only
      by_cases h3 : (2 * r + 1) * (2 * r + 1) ≤ n
      · rw [if_pos h3]
        refine ⟨h3, ?_⟩
        have e : (2 * r + 1 + 1) * (2 * r + 1 + 1) = 4 * ((r + 1) * (r + 1)) := by ring
        rw [e]; omega
      · rw [if_neg h3]
        refine ⟨?_, by omega⟩
        have e : 2 * r * (2 * r) = 4 * (r * r) := by ring
        rw [e]; omega

theorem isqrt_spec (n : Nat) : isqrt n * isqrt n ≤ n ∧ n < (isqrt n + 1) * (isqrt n + 1) :=
  isqrtFuel_spec n n le_rfl

theorem ilog2_le_52 (n : Nat) (h0 : n ≠ 0) (h : n < 2 ^ 53) : ilog2 n ≤ 52 := by
  obtain ⟨s1, _⟩ := ilog2_spec n h0
  have : ilog2 n < 53 := (Nat.pow_lt_pow_iff_right (by norm_num : 1 < 2)).1 (lt_of_le_of_lt s1 h)
  omega

theorem Dbl.ofNat_zero : Dbl.ofNat 0 = Dbl.fin 0 0 := by
  simp [Dbl.ofNat, Dbl.round]

theorem Dbl.ofNat_pos (n : Nat) (h0 : n ≠ 0) (h : n < 2 ^ 53) :
    Dbl.ofNat n = Dbl.fin (n * 2 ^ (52 - ilog2 n)) (-((52 - ilog2 n : Nat) : Int)) := by
  have hL := ilog2_le_52 n h0 h
  obtain ⟨s1, _⟩ := ilog2_spec n h0
  have h1 : ilog2 1 = 0 := by decide
  have e1 : (52 + ((ilog2 1 : Nat) : Int) - ((ilog2 n : Nat) : Int))
      = ((52 - ilog2 n : Nat) : Int) := by rw [h1]; omega
  have hbig : ¬ n * 2 ^ (52 - ilog2 n) < 2 ^ 52 := by
    have : 2 ^ ilog2 n * 2 ^ (52 - ilog2 n) = 2 ^ 52 := by
      rw [← pow_add]; congr 1; omega
    have := Nat.mul_le_mul_right (2 ^ (52 - ilog2 n)) s1
    omega
  simp only [Dbl.ofNat, Dbl.round, if_neg h0, e1, Int.toNat_ofNat, Int.toNat_neg_nat, pow_zero,
    mul_one, Nat.div_one, Nat.mod_one, if_neg hbig]
  simp

theorem Dbl.le_fin_iff (m1 m2 : Nat) (e1 e2 : Int) :
    Dbl.le (Dbl.fin m1 e1) (Dbl.fin m2 e2) = true ↔
      (m1 : ℚ) * (2 : ℚ) ^ e1 ≤ (m2 : ℚ) * (2 : ℚ) ^ e2 := by
  have h2 : (0 : ℚ) < 2 := by norm_num
  have hpos : (0 : ℚ) < (2 : ℚ) ^ (min e1 e2) := zpow_pos h2 _
  have c1 : (((e1 - min e1 e2).toNat : Nat) : Int) = e1 - min e1 e2 :=
    Int.toNat_of_nonneg (by have := min_le_left e1 e2; omega)
  have c2 : (((e2 - min e1 e2).toNat : Nat) : Int) = e2 - min e1 e2 :=
    Int.toNat_of_nonneg (by have := min_le_right e1 e2; omega)
  have p1 : (2 : ℚ) ^ e1 = (2 : ℚ) ^ ((e1 - min e1 e2).toNat) * (2 : ℚ) ^ (min e1 e2) := by
    rw [← zpow_natCast, c1, ← zpow_add₀ (by norm_num : (2 : ℚ) ≠ 0)]; congr 1; ring
  have p2 : (2 : ℚ) ^ e2 = (2 : ℚ) ^ ((e2 - min e1 e2).toNat) * (2 : ℚ) ^ (min e1 e2) := by
    rw [← zpow_natCast, c2, ← zpow_add₀ (by norm_num : (2 : ℚ) ≠ 0)]; congr 1; ring
  simp only [Dbl.le, decide_eq_true_eq]
  rw [p1, p2, ← mul_assoc, ← mul_assoc, mul_le_mul_right hpos]
  constructor
  · intro h
    have : ((m1 * 2 ^ (e1 - min e1 e2).toNat : Nat) : ℚ)
        ≤ ((m2 * 2 ^ (e2 - min e1 e2).toNat : Nat) : ℚ) := by exact_mod_cast h
    simpa using this
  · intro h
    have : ((m1 * 2 ^ (e1 - min e1 e2).toNat : Nat) : ℚ)
        ≤ ((m2 * 2 ^ (e2 - min e1 e2).toNat : Nat) : ℚ) := by simpa using h
    exact_mod_cast this

/-- The double made from a natural number below `2 ^ 53` has exactly that value. -/
theorem Dbl.ofNat_val (n : Nat) (h : n < 2 ^ 53) :
    ∃ m e, Dbl.ofNat n = Dbl.fin m e ∧ (m : ℚ) * (2 : ℚ) ^ e = (n : ℚ) := by
  by_cases h0 : n = 0
  · subst h0
    exact ⟨0, 0, Dbl.ofNat_zero, by simp⟩
  · refine ⟨_, _, Dbl.ofNat_pos n h0 h, ?_⟩
    rw [zpow_neg, zpow_natCast]
    have : ((2 : ℚ) ^ (52 - ilog2 n)) ≠ 0 := pow_ne_zero _ (by norm_num)
    push_cast
    field_simp

/-- The rounded square root against an integer bound: the arithmetic core. -/
theorem sqrt_round_le_iff (n R K s : Nat) (hK : R < K)
    (h1 : s * s ≤ n * (K * K)) (h2 : n * (K * K) < (s + 1) * (s + 1)) :
    (if s < n * (K * K) - s * s then s + 1 else s) ≤ R * K ↔ n ≤ R * R := by
  constructor
  · intro h
    by_contra hn
    have hn1 : R * R + 1 ≤ n := by omega
    have hN : (R * K) * (R * K) + K * K ≤ n * (K * K) := by
      calc (R * K) * (R * K) + K * K = (R * R + 1) * (K * K) := by ring
        _ ≤ n * (K * K) := Nat.mul_le_mul_right _ hn1
    have hs : R * K ≤ s := by
      by_contra hlt
      have : s + 1 ≤ R * K := by omega
      have := Nat.mul_le_mul this this
      omega
    have hKK : R * K < K * K := Nat.mul_lt_mul_of_pos_right hK (by omega)
    by_cases hc : s < n * (K * K) - s * s
    · rw [if_pos hc] at h; omega
    · rw [if_neg hc] at h
      have hs2 : s = R * K := by omega
      rw [hs2] at hc
      omega
  · intro h
    have hN : n * (K * K) ≤ (R * K) * (R * K) := by
      calc n * (K * K) ≤ (R * R) * (K * K) := Nat.mul_le_mul_right _ h
        _ = (R * K) * (R * K) := by ring
    have hs : s ≤ R * K := by
      by_contra hlt
      have : R * K + 1 ≤ s := by omega
      have := Nat.mul_le_mul this this
      have e : (R * K + 1) * (R * K + 1) = R * K * (R * K) + 2 * (R * K) + 1 := by ring
      omega
    by_cases hc : s < n * (K * K) - s * s
    · rw [if_pos hc]
      by_contra hlt
      have hs2 : s = R * K := by omega
      rw [hs2] at hc
      omega
    · rw [if_neg hc]; exact hs

/-- Line 200 on integers: for `n < 2 ^ 53` and `R < 2 ^ 26` the floating-point test
`sqrt(n) <= R` holds exactly when `n ≤ R²`. -/
theorem Dbl.sqrt_le_iff (n R : Nat) (hn : n < 2 ^ 53) (hR : R < 2 ^ 26) :
    Dbl.le (Dbl.sqrt (Dbl.ofNat n)) (Dbl.ofNat R) = true ↔ n ≤ R * R := by
  obtain ⟨mR, eR, hR1, hR2⟩ := Dbl.ofNat_val R (lt_trans hR (by norm_num))
  by_cases h0 : n = 0
  · subst h0
    rw [Dbl.ofNat_zero, hR1]
    simp only [Dbl.sqrt, if_true, Dbl.le_fin_iff]
    rw [hR2]
    simp
  · have hL := ilog2_le_52 n h0 hn
    obtain ⟨s1, s2⟩ := ilog2_spec n h0
    have hm1 : 2 ^ 52 ≤ n * 2 ^ (52 - ilog2 n) := by
      have : 2 ^ ilog2 n * 2 ^ (52 - ilog2 n) = 2 ^ 52 := by
        rw [← pow_add]; congr 1; omega
      have := Nat.mul_le_mul_right (2 ^ (52 - ilog2 n)) s1
      omega
    have hm2 : n * 2 ^ (52 - ilog2 n) < 2 ^ (52 + 1) := by
      have : 2 ^ (ilog2 n + 1) * 2 ^ (52 - ilog2 n) = 2 ^ (52 + 1) := by
        rw [← pow_add]; congr 1; omega
      have := Nat.mul_lt_mul_of_pos_right s2 (Nat.pow_pos (by norm_num : 0 < 2) : 0 < 2 ^ (52 - ilog2 n))
      omega
    have hlog := ilog2_unique _ 52 hm1 hm2
    have hm0 : n * 2 ^ (52 - ilog2 n) ≠ 0 := by
      have : 0 < 2 ^ 52 := by norm_num
      omega
    rw [Dbl.ofNat_pos n h0 hn, hR1]
    simp only [Dbl.sqrt, if_neg hm0, hlog]
    have ek : (52 : Int) - (((52 : Nat) : Int) + -((52 - ilog2 n : Nat) : Int)) / 2
        = ((52 - ilog2 n / 2 : Nat) : Int) := by omega
    have et : (-((52 - ilog2 n : Nat) : Int) + 2 * ((52 - ilog2 n / 2 : Nat) : Int)).toNat
        = 2 * (52 - ilog2 n / 2) - (52 - ilog2 n) := by omega
    have eN : n * 2 ^ (52 - ilog2 n) * 2 ^ (2 * (52 - ilog2 n / 2) - (52 - ilog2 n))
        = n * (2 ^ (52 - ilog2 n / 2) * 2 ^ (52 - ilog2 n / 2)) := by
      rw [mul_assoc, ← pow_add, ← pow_add]; congr 2; omega
    rw [ek, et, eN]
    obtain ⟨q1, q2⟩ := isqrt_spec (n * (2 ^ (52 - ilog2 n / 2) * 2 ^ (52 - ilog2 n / 2)))
    generalize isqrt (n * (2 ^ (52 - ilog2 n / 2) * 2 ^ (52 - ilog2 n / 2))) = s at q1 q2 ⊢
    have hK : R < 2 ^ (52 - ilog2 n / 2) := by
      have : 2 ^ 26 ≤ 2 ^ (52 - ilog2 n / 2) :=
        Nat.pow_le_pow_right (by norm_num) (by omega)
      omega
    rw [Dbl.le_fin_iff, hR2, ← sqrt_round_le_iff n R _ s hK q1 q2]
    generalize (if s < n * (2 ^ (52 - ilog2 n / 2) * 2 ^ (52 - ilog2 n / 2)) - s * s
      then s + 1 else s) = m
    have hp : (0 : ℚ) < (2 : ℚ) ^ (52 - ilog2 n / 2) := pow_pos (by norm_num) _
    rw [zpow_neg, zpow_natCast, ← div_eq_mul_inv, div_le_iff₀ hp]
    constructor
    · intro h; exact_mod_cast h
    · intro h; exact_mod_cast h

theorem in_disc_iff (dx dy radius : Int) (hr : radius ≤ 32767)
    (hx : -radius ≤ dx ∧ dx ≤ radius) (hy : -radius ≤ dy ∧ dy ≤ radius) :
    in_disc dx dy radius = true ↔ dx * dx + dy * dy ≤ radius * radius := by
  have hr0 : 0 ≤ radius := by omega
  have hxx : dx * dx ≤ radius * radius := by nlinarith [hx.1, hx.2]
  have hyy : dy * dy ≤ radius * radius := by nlinarith [hy.1, hy.2]
  have hrr : radius * radius ≤ 32767 * 32767 := by nlinarith
  have hn0 : 0 ≤ dx * dx + dy * dy := by nlinarith [mul_self_nonneg dx, mul_self_nonneg dy]
  have cn : (((dx * dx + dy * dy).toNat : Nat) : Int) = dx * dx + dy * dy :=
    Int.toNat_of_nonneg hn0
  have cr : ((radius.toNat : Nat) : Int) = radius := Int.toNat_of_nonneg hr0
  have hn : (dx * dx + dy * dy).toNat < 2 ^ 53 := by
    have : (((dx * dx + dy * dy).toNat : Nat) : Int) < 2 ^ 53 := by rw [cn]; norm_num; omega
    exact_mod_cast this
  have hR : radius.toNat < 2 ^ 26 := by
    have : ((radius.toNat : Nat) : Int) < 2 ^ 26 := by rw [cr]; norm_num; omega
    exact_mod_cast this
  unfold in_disc
  rw [Dbl.sqrt_le_iff _ _ hn hR]
  constructor
  · intro h
    have : (((dx * dx + dy * dy).toNat : Nat) : Int) ≤ ((radius.toNat * radius.toNat : Nat) : Int) := by
      exact_mod_cast h
    rw [cn] at this
    push_cast at this
    rw [cr] at this
    exact this
  · intro h
    have : (((dx * dx + dy * dy).toNat : Nat) : Int) ≤ ((radius.toNat * radius.toNat : Nat) : Int) := by
      rw [cn]; push_cast; rw [cr]; exact h
    exact_mod_cast this

theorem mem_intRange (lo hi v : Int) : v ∈ intRange lo hi ↔ lo ≤ v ∧ v ≤ hi := by
  unfold intRange
  simp only [List.mem_map, List.mem_range]
  constructor
  · rintro ⟨i, hi1, rfl⟩
    omega
  · intro h
    exact ⟨(v - lo).toNat, by omega, by omega⟩

/-! ## Pixel addressing -/

theorem offset_bound (pb : Pixbuf) (h : pb.wf) (a b : Nat) (ha : a < pb.width)
    (hb : b < pb.height) : b * pb.rowstride + a * pb.n_channels + 2 < pb.pixels.length := by
  obtain ⟨h1, h2, h3⟩ := h
  have e1 : (a + 1) * pb.n_channels ≤ pb.width * pb.n_channels := Nat.mul_le_mul_right _ ha
  have e2 : (b + 1) * pb.rowstride ≤ pb.height * pb.rowstride := Nat.mul_le_mul_right _ hb
  rw [Nat.add_mul] at e1 e2
  omega

theorem offset_disjoint (pb : Pixbuf) (h : pb.wf) (a b a1 b1 k k1 : Nat) (ha : a < pb.width)
    (ha1 : a1 < pb.width) (hk : k ≤ 2) (hk1 : k1 ≤ 2) (hne : ¬ (a = a1 ∧ b = b1)) :
    b * pb.rowstride + a * pb.n_channels + k ≠ b1 * pb.rowstride + a1 * pb.n_channels + k1 := by
  obtain ⟨h1, h2, _⟩ := h
  have e1 : (a + 1) * pb.n_channels ≤ pb.width * pb.n_channels := Nat.mul_le_mul_right _ ha
  have e2 : (a1 + 1) * pb.n_channels ≤ pb.width * pb.n_channels := Nat.mul_le_mul_right _ ha1
  rw [Nat.add_mul] at e1 e2
  rcases Nat.lt_trichotomy b b1 with hb | hb | hb
  · have e3 : (b + 1) * pb.rowstride ≤ b1 * pb.rowstride := Nat.mul_le_mul_right _ hb
    rw [Nat.add_mul] at e3
    omega
  · subst hb
    rcases Nat.lt_trichotomy a a1 with hc | hc | hc
    · have e3 : (a + 1) * pb.n_channels ≤ a1 * pb.n_channels := Nat.mul_le_mul_right _ hc
      rw [Nat.add_mul] at e3
      omega
    · exact absurd ⟨hc, rfl⟩ hne
    · have e3 : (a1 + 1) * pb.n_channels ≤ a * pb.n_channels := Nat.mul_le_mul_right _ hc
      rw [Nat.add_mul] at e3
      omega
  · have e3 : (b1 + 1) * pb.rowstride ≤ b * pb.rowstride := Nat.mul_le_mul_right _ hb
    rw [Nat.add_mul] at e3
    omega

theorem peek_natCast (p : List Byte) (o : Nat) : peek p (o : Int) = p[o]? := by
  simp [peek]

theorem rgb_at_nat (pb : Pixbuf) (a b : Nat) :
    rgb_at pb (a : Int) (b : Int) =
      match pb.pixels[b * pb.rowstride + a * pb.n_channels]?,
            pb.pixels[b * pb.rowstride + a * pb.n_channels + 1]?,
            pb.pixels[b * pb.rowstride + a * pb.n_channels + 2]? with
      | some r, some g, some b => some (r, g, b)
      | _, _, _ => none := by
  have e0 : (b : Int) * (pb.rowstride : Int) + (a : Int) * (pb.n_channels : Int)
      = ((b * pb.rowstride + a * pb.n_channels : Nat) : Int) := by push_cast; ring
  have e1 : ((b * pb.rowstride + a * pb.n_channels : Nat) : Int) + 1
      = ((b * pb.rowstride + a * pb.n_channels + 1 : Nat) : Int) := by push_cast; ring
  have e2 : ((b * pb.rowstride + a * pb.n_channels : Nat) : Int) + 2
      = ((b * pb.rowstride + a * pb.n_channels + 2 : Nat) : Int) := by push_cast; ring
  unfold rgb_at
  simp only [e0, e1, e2, peek_natCast]

theorem poke_natCast (p : List Byte) (o : Nat) (v : Byte) (h : o < p.length) :
    poke p (o : Int) v = some (p.set o v) := by
  simp [poke, h]

theorem getElem?_set_rgb (p : List Byte) (o j : Nat) (r g b : Byte) (h : o + 2 < p.length) :
    (set_rgb p o r g b)[j]? =
      if j = o then some r else if j = o + 1 then some g else if j = o + 2 then some b
      else p[j]? := by
  simp only [set_rgb, List.getElem?_set, List.length_set]
  by_cases h0 : j = o
  · subst h0
    simp; omega
  · by_cases h1 : j = o + 1
    · subst h1
      simp; omega
    · by_cases h2 : j = o + 2
      · subst h2
        simp; omega
      · have a0 : ¬ o = j := fun e => h0 e.symm
        have a1 : ¬ o + 1 = j := fun e => h1 e.symm
        have a2 : ¬ o + 2 = j := fun e => h2 e.symm
        simp [h0, h1, h2, a0, a1, a2]

/-- The three byte writes of lines 207-210 at an in-bounds pixel of a well-formed image. -/
theorem stamp_pixel_inb (pb : Pixbuf) (h : pb.wf) (a b : Nat) (ha : a < pb.width)
    (hb : b < pb.height) (r g bl : Byte) :
    stamp_pixel pb (a : Int) (b : Int) r g bl =
      some { pb with
        pixels := set_rgb pb.pixels (b * pb.rowstride + a * pb.n_channels) r g bl } := by
  have hlen := offset_bound pb h a b ha hb
  have e0 : (b : Int) * (pb.rowstride : Int) + (a : Int) * (pb.n_channels : Int)
      = ((b * pb.rowstride + a * pb.n_channels : Nat) : Int) := by push_cast; ring
  have e1 : ((b * pb.rowstride + a * pb.n_channels : Nat) : Int) + 1
      = ((b * pb.rowstride + a * pb.n_channels + 1 : Nat) : Int) := by push_cast; ring
  have e2 : ((b * pb.rowstride + a * pb.n_channels : Nat) : Int) + 2
      = ((b * pb.rowstride + a * pb.n_channels + 2 : Nat) : Int) := by push_cast; ring
  have c : (a : Int) ≥ 0 ∧ (b : Int) ≥ 0 ∧ (a : Int) < (pb.width : Int)
      ∧ (b : Int) < (pb.height : Int) := by
    refine ⟨by omega, by omega, by exact_mod_cast ha, by exact_mod_cast hb⟩
  unfold stamp_pixel
  rw [if_pos c]
  simp only [e0, e1, e2]
  rw [poke_natCast _ _ _ (by omega)]
  simp only [Option.some_bind]
  rw [poke_natCast _ _ _ (by rw [List.length_set]; omega)]
  simp only [Option.some_bind]
  rw [poke_natCast _ _ _ (by rw [List.length_set, List.length_set]; omega)]
  simp only [Option.some_bind, set_rgb]

theorem stamp_pixel_oob (pb : Pixbuf) (nx ny : Int) (r g b : Byte)
    (h : ¬ (nx ≥ 0 ∧ ny ≥ 0 ∧ nx < pb.width ∧ ny < pb.height)) :
    stamp_pixel pb nx ny r g b = some pb := by
  unfold stamp_pixel
  rw [if_neg h]

theorem SameShape_refl (p : Pixbuf) : SameShape p p := ⟨rfl, rfl, rfl, rfl, rfl⟩

theorem SameShape_trans {p q t : Pixbuf} (h1 : SameShape p q) (h2 : SameShape q t) :
    SameShape p t := by
  obtain ⟨a1, a2, a3, a4, a5⟩ := h1
  obtain ⟨b1, b2, b3, b4, b5⟩ := h2
  exact ⟨b1.trans a1, b2.trans a2, b3.trans a3, b4.trans a4, b5.trans a5⟩

theorem SameShape_wf {p q : Pixbuf} (h : SameShape p q) (hp : p.wf) : q.wf := by
  obtain ⟨a1, a2, a3, a4, a5⟩ := h
  unfold Pixbuf.wf at hp ⊢
  rw [a1, a2, a3, a4, a5]
  exact hp

theorem Painted_refl (c : Byte × Byte × Byte) (S : Int → Int → Prop) (p : Pixbuf)
    (hS : ∀ x y, ¬ S x y) : Painted c S p p :=
  ⟨SameShape_refl p, fun x y _ _ _ _ => ⟨fun h => absurd h (hS x y), fun _ => rfl⟩⟩

theorem Painted_trans {c : Byte × Byte × Byte} {S1 S2 : Int → Int → Prop} {p q t : Pixbuf}
    (h1 : Painted c S1 p q) (h2 : Painted c S2 q t) :
    Painted c (fun x y => S1 x y ∨ S2 x y) p t := by
  obtain ⟨s1, f1⟩ := h1
  obtain ⟨s2, f2⟩ := h2
  refine ⟨SameShape_trans s1 s2, ?_⟩
  intro x y hx0 hx1 hy0 hy1
  obtain ⟨a1, a2⟩ := f1 x y hx0 hx1 hy0 hy1
  obtain ⟨b1, b2⟩ := f2 x y hx0 (by rw [s1.1]; exact hx1) hy0 (by rw [s1.2.1]; exact hy1)
  constructor
  · intro hS
    by_cases h2 : S2 x y
    · exact b1 h2
    · rw [b2 h2]
      rcases hS with hS | hS
      · exact a1 hS
      · exact absurd hS h2
  · intro hS
    rw [b2 (fun h => hS (Or.inr h)), a2 (fun h => hS (Or.inl h))]

theorem Painted_mono {c : Byte × Byte × Byte} {S T : Int → Int → Prop} {p q : Pixbuf}
    (h : Painted c S p q) (hST : ∀ x y, S x y ↔ T x y) : Painted c T p q := by
  obtain ⟨s1, f1⟩ := h
  refine ⟨s1, fun x y hx0 hx1 hy0 hy1 => ?_⟩
  obtain ⟨a1, a2⟩ := f1 x y hx0 hx1 hy0 hy1
  exact ⟨fun hT => a1 ((hST x y).2 hT), fun hT => a2 (fun hS => hT ((hST x y).1 hS))⟩

/-- Lines 205-211: on a well-formed image the clipped write returns and paints exactly
the pixel `(nx, ny)`. -/
theorem stamp_pixel_painted (pb : Pixbuf) (h : pb.wf) (nx ny : Int) (r g b : Byte) :
    ∃ q, stamp_pixel pb nx ny r g b = some q ∧
      Painted (r, g, b) (fun x y => x = nx ∧ y = ny) pb q := by
  by_cases hin : nx ≥ 0 ∧ ny ≥ 0 ∧ nx < pb.width ∧ ny < pb.height
  · obtain ⟨h1, h2, h3, h4⟩ := hin
    lift nx to Nat using h1
    lift ny to Nat using h2
    have ha : nx < pb.width := by exact_mod_cast h3
    have hb : ny < pb.height := by exact_mod_cast h4
    refine ⟨_, stamp_pixel_inb pb h nx ny ha hb r g b, ?_⟩
    refine ⟨⟨rfl, rfl, rfl, rfl, by simp [set_rgb]⟩, ?_⟩
    intro x y hx0 hx1 hy0 hy1
    lift x to Nat using hx0
    lift y to Nat using hy0
    have hx : x < pb.width := by exact_mod_cast hx1
    have hlen := offset_bound pb h nx ny ha hb
    rw [rgb_at_nat, rgb_at_nat]
    simp only [getElem?_set_rgb _ _ _ _ _ _ hlen]
    constructor
    · rintro ⟨e1, e2⟩
      have e1 : x = nx := by exact_mod_cast e1
      have e2 : y = ny := by exact_mod_cast e2
      subst e1; subst e2
      simp
    · intro hne
      have hne1 : ¬ (x = nx ∧ y = ny) := by
        rintro ⟨e1, e2⟩
        exact hne ⟨by exact_mod_cast e1, by exact_mod_cast e2⟩
      have d := fun k k1 hk hk1 => offset_disjoint pb h x y nx ny k k1 hx ha hk hk1 hne1
      have d00 := d 0 0 (by omega) (by omega)
      have d01 := d 0 1 (by omega) (by omega)
      have d02 := d 0 2 (by omega) (by omega)
      have d10 := d 1 0 (by omega) (by omega)
      have d11 := d 1 1 (by omega) (by omega)
      have d12 := d 1 2 (by omega) (by omega)
      have d20 := d 2 0 (by omega) (by omega)
      have d21 := d 2 1 (by omega) (by omega)
      have d22 := d 2 2 (by omega) (by omega)
      simp only [Nat.add_zero] at d00 d01 d02 d10 d20
      rw [if_neg d00, if_neg d01, if_neg d02, if_neg d10, if_neg d11, if_neg d12,
        if_neg d20, if_neg d21, if_neg d22]
  · refine ⟨pb, stamp_pixel_oob pb nx ny r g b hin, SameShape_refl pb, ?_⟩
    intro x y hx0 hx1 hy0 hy1
    refine ⟨?_, fun _ => rfl⟩
    rintro ⟨e1, e2⟩
    subst e1; subst e2
    exact absurd ⟨hx0, hy0, hx1, hy1⟩ hin

/-- A loop whose every step paints the pixels `S a` paints their union. -/
theorem foldlM_painted {α : Type} (c : Byte × Byte × Byte) (f : Pixbuf → α → Option Pixbuf)
    (S : α → Int → Int → Prop)
    (hstep : ∀ acc a, acc.wf → ∃ q, f acc a = some q ∧ Painted c (S a) acc q) :
    ∀ (l : List α) (pb : Pixbuf), pb.wf →
      ∃ q, l.foldlM f pb = some q ∧ Painted c (fun x y => ∃ a, a ∈ l ∧ S a x y) pb q := by
  intro l
  induction l with
  | nil =>
    intro pb _
    refine ⟨pb, rfl, Painted_refl c _ pb ?_⟩
    rintro x y ⟨a, ha, _⟩
    exact absurd ha (List.not_mem_nil a)
  | cons a l ih =>
    intro pb hwf
    obtain ⟨q1, e1, p1⟩ := hstep pb a hwf
    obtain ⟨q2, e2, p2⟩ := ih q1 (SameShape_wf p1.1 hwf)
    refine ⟨q2, ?_, Painted_mono (Painted_trans p1 p2) ?_⟩
    · rw [List.foldlM_cons, e1]
      exact e2
    · intro x y
      constructor
      · rintro (h | ⟨b, hb, hS⟩)
        · exact ⟨a, List.mem_cons_self a l, h⟩
        · exact ⟨b, List.mem_cons_of_mem a hb, hS⟩
      · rintro ⟨b, hb, hS⟩
        rcases List.mem_cons.1 hb with rfl | hb
        · exact Or.inl hS
        · exact Or.inr ⟨b, hb, hS⟩

/-- Lines 196-214: on a well-formed image the stamp loop returns and paints exactly the
pixels `(px + dx, py + dy)` whose offset passes the test of line 200. -/
theorem stamp_loop_painted (pb : Pixbuf) (h : pb.wf) (px py radius : Int) (r g b : Byte) :
    ∃ q, stamp_loop pb px py radius r g b = some q ∧
      Painted (r, g, b) (fun x y => ∃ dy, dy ∈ intRange (-radius) radius ∧
        ∃ dx, dx ∈ intRange (-radius) radius ∧
          (in_disc dx dy radius = true ∧ x = px + dx ∧ y = py + dy)) pb q := by
  unfold stamp_loop
  apply foldlM_painted (r, g, b)
    (fun acc dy => stamp_row px py radius r g b dy acc)
    (fun dy x y => ∃ dx, dx ∈ intRange (-radius) radius ∧
          (in_disc dx dy radius = true ∧ x = px + dx ∧ y = py + dy))
  · intro acc dy hacc
    unfold stamp_row
    apply foldlM_painted (r, g, b) _
      (fun dx x y => in_disc dx dy radius = true ∧ x = px + dx ∧ y = py + dy)
    · intro acc1 dx hacc1
      by_cases hd : in_disc dx dy radius = true
      · simp only [hd, if_true, true_and]
        exact stamp_pixel_painted acc1 hacc1 (px + dx) (py + dy) r g b
      · simp only [hd, if_false, false_and]
        exact ⟨acc1, rfl, Painted_refl _ _ acc1 (fun _ _ hf => by simp at hf)⟩
    · exact hacc
  · exact h

theorem disc_offsets_iff (px py radius x y : Int) (hr0 : 0 ≤ radius) (hr : radius ≤ 32767) :
    (∃ dy, dy ∈ intRange (-radius) radius ∧ ∃ dx, dx ∈ intRange (-radius) radius ∧
      (in_disc dx dy radius = true ∧ x = px + dx ∧ y = py + dy)) ↔
    (x - px) * (x - px) + (y - py) * (y - py) ≤ radius * radius := by
  constructor
  · rintro ⟨dy, hdy, dx, hdx, hd, rfl, rfl⟩
    rw [mem_intRange] at hdy hdx
    have := (in_disc_iff dx dy radius hr hdx hdy).1 hd
    have e1 : px + dx - px = dx := by ring
    have e2 : py + dy - py = dy := by ring
    rw [e1, e2]
    exact this
  · intro h
    have hx : -radius ≤ x - px ∧ x - px ≤ radius := by
      constructor <;> nlinarith [mul_self_nonneg (y - py), mul_self_nonneg (x - px)]
    have hy : -radius ≤ y - py ∧ y - py ≤ radius := by
      constructor <;> nlinarith [mul_self_nonneg (y - py), mul_self_nonneg (x - px)]
    refine ⟨y - py, (mem_intRange _ _ _).2 hy, x - px, (mem_intRange _ _ _).2 hx, ?_, by ring,
      by ring⟩
    exact (in_disc_iff _ _ radius hr hx hy).2 h

/-- C1: on a well-formed image, for every centre `(px, py)`, every radius
`0 ≤ radius ≤ 32767` (the radii for which `dx * dx + dy * dy` fits in an `int`) and every
colour, the stamp loop of `paint_brush` returns, keeps the image layout, sets every
in-bounds pixel `(x, y)` with `(x - px)² + (y - py)² ≤ radius²` to the colour (distance
exactly `radius` included) and leaves every in-bounds pixel with
`(x - px)² + (y - py)² > radius²` as it was. -/
theorem stamp_loop_disc (pb : Pixbuf) (hwf : pb.wf) (px py radius : Int) (hr0 : 0 ≤ radius)
    (hr : radius ≤ 32767) (r g b : Byte) :
    ∃ q, stamp_loop pb px py radius r g b = some q ∧ SameShape pb q ∧
      ∀ x y : Int, 0 ≤ x → x < pb.width → 0 ≤ y → y < pb.height →
        ((x - px) * (x - px) + (y - py) * (y - py) ≤ radius * radius →
          rgb_at q x y = some (r, g, b)) ∧
        (radius * radius < (x - px) * (x - px) + (y - py) * (y - py) →
          rgb_at q x y = rgb_at pb x y) := by
  obtain ⟨q, hq, hp⟩ := stamp_loop_painted pb hwf px py radius r g b
  have hp2 := Painted_mono hp (fun x y => disc_offsets_iff px py radius x y hr0 hr)
  refine ⟨q, hq, hp2.1, fun x y hx0 hx1 hy0 hy1 => ?_⟩
  obtain ⟨a1, a2⟩ := hp2.2 x y hx0 hx1 hy0 hy1
  exact ⟨a1, fun hgt => a2 (not_le.2 hgt)⟩

theorem stamp_loop_disc_witness :
    img10.wf ∧ (0 : Int) ≤ 2 ∧ (2 : Int) ≤ 32767 ∧
    ∃ q, stamp_loop img10 5 5 2 1 2 3 = some q ∧ rgb_at q 5 7 = some (1, 2, 3) ∧
      rgb_at q 7 7 = rgb_at img10 7 7 := by
  refine ⟨by decide, by decide, by decide, ?_⟩
  obtain ⟨q, hq, _, hpix⟩ := stamp_loop_disc img10 (by decide) 5 5 2 (by decide) (by decide) 1 2 3
  refine ⟨q, hq, ?_, ?_⟩
  · exact (hpix 5 7 (by decide) (by decide) (by decide) (by decide)).1 (by decide)
  · exact (hpix 7 7 (by decide) (by decide) (by decide) (by decide)).2 (by decide)

/-! ## History -/

theorem on_undo_clicked_cons (s : AppData) (p : Option Pixbuf) (rest : List (Option Pixbuf))
    (h : s.undo_stack = p :: rest) :
    on_undo_clicked s =
      { s with redo_stack := gdk_pixbuf_copy s.pixbuf :: s.redo_stack, undo_stack := rest,
               pixbuf := p } := by
  simp [on_undo_clicked, h]

theorem on_redo_clicked_cons (s : AppData) (p : Option Pixbuf) (rest : List (Option Pixbuf))
    (h : s.redo_stack = p :: rest) :
    on_redo_clicked s =
      { s with undo_stack := gdk_pixbuf_copy s.pixbuf :: s.undo_stack, redo_stack := rest,
               pixbuf := p } := by
  simp [on_redo_clicked, h]

theorem save_undo_state_some (s : AppData) (B : Pixbuf) (h : s.pixbuf = some B) :
    save_undo_state s = { s with undo_stack := some B :: s.undo_stack, redo_stack := [] } := by
  simp [save_undo_state, h, gdk_pixbuf_copy]

/-- C4: when the undo stack is not empty, `on_undo_clicked` followed by `on_redo_clicked`
restores the live buffer, the undo stack and the redo stack. -/
theorem undo_redo_round_trip (s : AppData) (h : s.undo_stack ≠ []) :
    (on_redo_clicked (on_undo_clicked s)).pixbuf = s.pixbuf ∧
    (on_redo_clicked (on_undo_clicked s)).undo_stack = s.undo_stack ∧
    (on_redo_clicked (on_undo_clicked s)).redo_stack = s.redo_stack := by
  cases hu : s.undo_stack with
  | nil => exact absurd hu h
  | cons p rest =>
    rw [on_undo_clicked_cons s p rest hu]
    simp [on_redo_clicked, gdk_pixbuf_copy]

theorem undo_redo_round_trip_witness :
    (session2 false true |> save_undo_state).undo_stack ≠ [] ∧
    (on_redo_clicked (on_undo_clicked (save_undo_state (session2 false true)))).pixbuf
      = some img2 := by
  refine ⟨by decide, ?_⟩
  exact (undo_redo_round_trip (save_undo_state (session2 false true)) (by decide)).1

/-- C5: with a loaded buffer `B`, `save_undo_state` prepends a copy of `B` to the undo
stack, empties the redo stack and keeps the live buffer; after snapshot, undo, snapshot
the redo stack is empty and `on_redo_clicked` changes nothing. -/
theorem snapshot_invalidates_redo (s : AppData) (B : Pixbuf) (h : s.pixbuf = some B) :
    ((save_undo_state s).undo_stack = gdk_pixbuf_copy (some B) :: s.undo_stack ∧
      (save_undo_state s).redo_stack = [] ∧
      (save_undo_state s).pixbuf = some B) ∧
    ((save_undo_state (on_undo_clicked (save_undo_state s))).redo_stack = [] ∧
      on_redo_clicked (save_undo_state (on_undo_clicked (save_undo_state s)))
        = save_undo_state (on_undo_clicked (save_undo_state s))) := by
  have h1 := save_undo_state_some s B h
  have h2 : (on_undo_clicked (save_undo_state s)).pixbuf = some B := by
    rw [h1]; simp [on_undo_clicked]
  have h3 := save_undo_state_some _ B h2
  refine ⟨⟨?_, ?_, ?_⟩, ?_, ?_⟩
  · rw [h1]; rfl
  · rw [h1]
  · rw [h1]; exact h
  · rw [h3]
  · rw [h3]; simp [on_redo_clicked]

theorem snapshot_invalidates_redo_witness :
    (session2 false true).pixbuf = some img2 ∧
    (save_undo_state (session2 false true)).undo_stack = [some img2] ∧
    (save_undo_state (on_undo_clicked (save_undo_state (session2 false true)))).redo_stack
      = [] := by
  have h := snapshot_invalidates_redo (session2 false true) img2 rfl
  exact ⟨rfl, h.1.1, h.2.1⟩

/-- C6: `on_undo_clicked` on an empty undo stack and `on_redo_clicked` on an empty redo
stack return the state unchanged (live buffer, undo stack, redo stack and all other
fields); after one snapshot on an empty undo stack and one undo, a second undo changes
nothing. -/
theorem empty_history_noop (s : AppData) :
    (s.undo_stack = [] → on_undo_clicked s = s) ∧
    (s.redo_stack = [] → on_redo_clicked s = s) ∧
    (s.undo_stack = [] →
      on_undo_clicked (on_undo_clicked (save_undo_state s))
        = on_undo_clicked (save_undo_state s)) := by
  refine ⟨fun h => by simp [on_undo_clicked, h], fun h => by simp [on_redo_clicked, h], ?_⟩
  intro h
  cases hp : s.pixbuf with
  | none => simp [save_undo_state, hp, on_undo_clicked, h]
  | some B =>
    rw [save_undo_state_some s B hp]
    simp [on_undo_clicked, h]

theorem empty_history_noop_witness :
    (session2 false true).undo_stack = [] ∧ (session2 false true).redo_stack = [] ∧
    on_undo_clicked (session2 false true) = session2 false true ∧
    on_redo_clicked (session2 false true) = session2 false true ∧
    (on_undo_clicked (on_undo_clicked (save_undo_state (session2 false true)))).pixbuf
      = (on_undo_clicked (save_undo_state (session2 false true))).pixbuf := by
  have h := empty_history_noop (session2 false true)
  exact ⟨rfl, rfl, h.1 rfl, h.2.1 rfl, congrArg AppData.pixbuf (h.2.2 rfl)⟩

/-! ## Painting -/

theorem range_check_pixel (W H : Nat) (p : Int × Int) (px py : Int)
    (h : range_check W H p = Target.pixel px py) :
    p = (px, py) ∧ 0 ≤ px ∧ px < W ∧ 0 ≤ py ∧ py < H := by
  unfold range_check at h
  by_cases hc : p.1 < 0 ∨ p.2 < 0 ∨ p.1 ≥ W ∨ p.2 ≥ H
  · rw [if_pos hc] at h
    exact absurd h (by simp)
  · rw [if_neg hc] at h
    injection h with h1 h2
    subst h1; subst h2
    refine ⟨rfl, ?_, ?_, ?_, ?_⟩ <;> omega

/-- Shape of every result of `paint_brush` on a loaded image: one snapshot of the image
as it was is pushed, the redo stack is emptied, nothing else but the pixels changes. -/
theorem paint_brush_result (s : AppData) (B : Pixbuf) (x y : Int) (hB : s.pixbuf = some B)
    (s1 : AppData) (h : paint_brush s x y = some s1) :
    ∃ B1, s1 = { s with undo_stack := some B :: s.undo_stack, redo_stack := [],
                        pixbuf := some B1 } := by
  unfold paint_brush at h
  rw [hB] at h
  simp only [save_undo_state_some s B hB] at h
  cases ht : paint_brush_target B.width B.height s.widget_width s.widget_height x y with
  | none => rw [ht] at h; exact absurd h (by simp)
  | some t =>
    rw [ht] at h
    cases t with
    | out_of_bounds =>
      simp only [Option.some.injEq] at h
      exact ⟨B, by rw [← h, hB]⟩
    | pixel px py =>
      simp only at h
      cases hl : stamp_loop B px py (s.brush_size.tdiv 2) s.selected_r s.selected_g
          s.selected_b with
      | none => rw [hl] at h; exact absurd h (by simp)
      | some q =>
        rw [hl] at h
        simp only [Option.some.injEq] at h
        exact ⟨q, h.symm⟩

/-- On a well-formed loaded image `paint_brush` returns whenever the mapping does not
divide by zero, and the image keeps its layout. -/
theorem paint_brush_returns (s : AppData) (B : Pixbuf) (x y : Int) (hB : s.pixbuf = some B)
    (hwf : B.wf)
    (hmap : paint_brush_map B.width B.height s.widget_width s.widget_height x y ≠ none) :
    ∃ B1, SameShape B B1 ∧
      paint_brush s x y = some { s with undo_stack := some B :: s.undo_stack, redo_stack := [],
                                        pixbuf := some B1 } := by
  have key : ∃ s1, paint_brush s x y = some s1 ∧
      ∃ B1, s1.pixbuf = some B1 ∧ SameShape B B1 := by
    unfold paint_brush
    rw [hB]
    simp only [save_undo_state_some s B hB]
    cases hm : paint_brush_map B.width B.height s.widget_width s.widget_height x y with
    | none => exact absurd hm hmap
    | some p =>
      simp only [paint_brush_target, hm, Option.map_some']
      cases ht : range_check B.width B.height p with
      | out_of_bounds => exact ⟨_, rfl, B, hB, SameShape_refl B⟩
      | pixel px py =>
        obtain ⟨q, hq, hp⟩ := stamp_loop_painted B hwf px py (s.brush_size.tdiv 2)
          s.selected_r s.selected_g s.selected_b
        simp only [hq]
        exact ⟨_, rfl, q, rfl, hp.1⟩
  obtain ⟨s1, h1, B1, h2, h3⟩ := key
  obtain ⟨B2, h4⟩ := paint_brush_result s B x y hB s1 h1
  have : B2 = B1 := by
    rw [h4] at h2
    simpa using h2
  subst this
  exact ⟨B2, h3, by rw [h1, h4]⟩

/-- C3: with a loaded buffer `B` and paint mode on, whenever `on_mouse_press` returns,
`on_undo_clicked` afterwards makes the live buffer equal to `B` again; and the press does
return when `B` is well-formed and the mapping does not divide by zero. -/
theorem press_then_undo (s : AppData) (B : Pixbuf) (x y : Int) (hB : s.pixbuf = some B)
    (hpm : s.paint_mode = true) :
    (∀ s1, on_mouse_press s x y = some s1 → (on_undo_clicked s1).pixbuf = some B) ∧
    (B.wf → paint_brush_map B.width B.height s.widget_width s.widget_height x y ≠ none →
      ∃ s1, on_mouse_press s x y = some s1 ∧ (on_undo_clicked s1).pixbuf = some B) := by
  have hpress : on_mouse_press s x y = paint_brush { s with painting := true } x y := by
    simp [on_mouse_press, hpm]
  have huniv : ∀ s1, on_mouse_press s x y = some s1 → (on_undo_clicked s1).pixbuf = some B := by
    intro s1 h1
    rw [hpress] at h1
    obtain ⟨B1, e⟩ := paint_brush_result { s with painting := true } B x y hB s1 h1
    rw [e]
    simp [on_undo_clicked]
  refine ⟨huniv, fun hwf hmap => ?_⟩
  obtain ⟨B1, _, e⟩ := paint_brush_returns { s with painting := true } B x y hB hwf hmap
  exact ⟨_, hpress.trans e, huniv _ (hpress.trans e)⟩

theorem press_then_undo_witness :
    (session2 false true).pixbuf = some img2 ∧ (session2 false true).paint_mode = true ∧
    img2.wf ∧ paint_brush_map 2 2 4 2 2 0 ≠ none ∧
    ∃ s1, on_mouse_press (session2 false true) 2 0 = some s1 ∧
      s1.pixbuf ≠ some img2 ∧ (on_undo_clicked s1).pixbuf = some img2 := by
  refine ⟨rfl, rfl, by decide, by decide, ?_⟩
  obtain ⟨s1, h1, h2⟩ :=
    (press_then_undo (session2 false true) img2 2 0 rfl rfl).2 (by decide) (by decide)
  refine ⟨s1, h1, ?_, h2⟩
  have e : on_mouse_press (session2 false true) 2 0 =
      some { session2 true true with
        pixbuf := some { img2 with pixels := [255, 0, 0, 7, 7, 7, 0, 255, 0, 9, 9, 9] },
        undo_stack := [some img2] } := by decide
  rw [e] at h1
  injection h1 with h1
  rw [← h1]
  decide

/-- Motion events of a stroke, with the lengths of the undo stack. -/
theorem motions_run (moves : List (Int × Int)) :
    ∀ (s : AppData) (B : Pixbuf), s.painting = true → s.paint_mode = true →
      s.pixbuf = some B → B.wf →
      (∀ m, m ∈ moves →
        paint_brush_map B.width B.height s.widget_width s.widget_height m.1 m.2 ≠ none) →
      ∃ s1, moves.foldlM (fun acc m => on_mouse_motion acc m.1 m.2) s = some s1 ∧
        s1.undo_stack.length = s.undo_stack.length + moves.length := by
  induction moves with
  | nil =>
    intro s B _ _ _ _ _
    exact ⟨s, rfl, rfl⟩
  | cons m l ih =>
    intro s B hp hm hB hwf hmap
    obtain ⟨B1, hs, e⟩ := paint_brush_returns s B m.1 m.2 hB hwf
      (hmap m (List.mem_cons_self m l))
    have e1 : on_mouse_motion s m.1 m.2 = some { s with
        undo_stack := some B :: s.undo_stack, redo_stack := [], pixbuf := some B1 } := by
      unfold on_mouse_motion
      rw [if_pos (by simp [hp, hm])]
      exact e
    obtain ⟨s2, h2, hlen⟩ := ih { s with
        undo_stack := some B :: s.undo_stack, redo_stack := [], pixbuf := some B1 } B1
      hp hm rfl (SameShape_wf hs hwf)
      (by
        intro m1 hm1
        rw [hs.1, hs.2.1]
        exact hmap m1 (List.mem_cons_of_mem m hm1))
    refine ⟨s2, ?_, ?_⟩
    · rw [List.foldlM_cons, e1]
      exact h2
    · rw [hlen]
      simp only [List.length_cons]
      omega

theorem hits_pixel_iff (t : Option Target) :
    hits_pixel t = true ↔ ∃ px py, t = some (Target.pixel px py) := by
  constructor
  · intro h
    cases t with
    | none => exact absurd h (by simp [hits_pixel])
    | some u =>
      cases u with
      | pixel px py => exact ⟨px, py, rfl⟩
      | out_of_bounds => exact absurd h (by simp [hits_pixel])
  · rintro ⟨px, py, rfl⟩
    rfl

/-- What a returned stamp loop has painted: the disc of line 200 and nothing else. -/
theorem stamp_loop_result_disc (pb : Pixbuf) (hwf : pb.wf) (px py radius : Int)
    (hr0 : 0 ≤ radius) (hr : radius ≤ 32767) (r g b : Byte) (q : Pixbuf)
    (hq : stamp_loop pb px py radius r g b = some q) :
    ∀ x y : Int, 0 ≤ x → x < pb.width → 0 ≤ y → y < pb.height →
      ((x - px) * (x - px) + (y - py) * (y - py) ≤ radius * radius →
        rgb_at q x y = some (r, g, b)) ∧
      (radius * radius < (x - px) * (x - px) + (y - py) * (y - py) →
        rgb_at q x y = rgb_at pb x y) := by
  obtain ⟨q1, hq1, hp⟩ := stamp_loop_painted pb hwf px py radius r g b
  have e : q1 = q := by
    rw [hq1] at hq
    exact Option.some.inj hq
  subst e
  have hp2 := Painted_mono hp (fun x y => disc_offsets_iff px py radius x y hr0 hr)
  intro x y hx0 hx1 hy0 hy1
  obtain ⟨a1, a2⟩ := hp2.2 x y hx0 hx1 hy0 hy1
  exact ⟨a1, fun hgt => a2 (not_le.2 hgt)⟩

/-- The function `paint_brush` at a point that maps to the in-bounds pixel `(px, py)` of
a well-formed image: snapshot, then the stamp loop centred at `(px, py)`. -/
theorem paint_brush_inb (s : AppData) (B : Pixbuf) (x y px py : Int) (hB : s.pixbuf = some B)
    (hwf : B.wf)
    (ht : paint_brush_target B.width B.height s.widget_width s.widget_height x y
      = some (Target.pixel px py)) :
    ∃ q, stamp_loop B px py (brush_radius s) s.selected_r s.selected_g s.selected_b = some q ∧
      SameShape B q ∧
      paint_brush s x y = some { s with undo_stack := some B :: s.undo_stack, redo_stack := [],
                                        pixbuf := some q } := by
  obtain ⟨q, hq, hp⟩ := stamp_loop_painted B hwf px py (s.brush_size.tdiv 2)
    s.selected_r s.selected_g s.selected_b
  refine ⟨q, hq, hp.1, ?_⟩
  unfold paint_brush
  rw [hB]
  simp only [ht, hq, save_undo_state_some s B hB]

/-- Motion events of a stroke whose samples all map to image pixels: every sample adds
one entry on top of the undo stack. -/
theorem motions_run_inb (moves : List (Int × Int)) :
    ∀ (s : AppData) (B : Pixbuf), s.painting = true → s.paint_mode = true →
      s.pixbuf = some B → B.wf →
      (∀ m, m ∈ moves →
        hits_pixel (paint_brush_target B.width B.height s.widget_width s.widget_height
          m.1 m.2) = true) →
      ∃ s1 pre, moves.foldlM (fun acc m => on_mouse_motion acc m.1 m.2) s = some s1 ∧
        s1.undo_stack = pre ++ s.undo_stack ∧ pre.length = moves.length := by
  induction moves with
  | nil =>
    intro s B _ _ _ _ _
    exact ⟨s, [], rfl, rfl, rfl⟩
  | cons m l ih =>
    intro s B hp hm hB hwf hhit
    obtain ⟨px, py, ht⟩ := (hits_pixel_iff _).1 (hhit m (List.mem_cons_self m l))
    obtain ⟨q, _, hs, e⟩ := paint_brush_inb s B m.1 m.2 px py hB hwf ht
    have e1 : on_mouse_motion s m.1 m.2 = some { s with
        undo_stack := some B :: s.undo_stack, redo_stack := [], pixbuf := some q } := by
      unfold on_mouse_motion
      rw [if_pos (by simp [hp, hm])]
      exact e
    obtain ⟨s2, pre, h2, hst, hlen⟩ := ih { s with
        undo_stack := some B :: s.undo_stack, redo_stack := [], pixbuf := some q } q
      hp hm rfl (SameShape_wf hs hwf)
      (by
        intro m1 hm1
        rw [hs.1, hs.2.1]
        exact hhit m1 (List.mem_cons_of_mem m hm1))
    refine ⟨s2, pre ++ [some B], ?_, ?_, ?_⟩
    · rw [List.foldlM_cons, e1]
      exact h2
    · rw [hst]
      simp
    · simp [hlen]

/-- C2 (amended): every stamp takes its own snapshot.  In a state with a loaded,
well-formed buffer `B` and paint mode on, a pointer-motion sample while painting that
maps to the in-bounds pixel `(px, py)` returns the state whose buffer is the result of
the stamp loop centred at `(px, py)` (for a radius between 0 and 32767: the disc in the
selected colour, every other pixel as it was), whose undo stack is a copy of `B`
prepended to the old one and whose redo stack is empty.  So after press, `n` motion
samples (all mapping to image pixels) and release, the undo stack is the old one under
`n + 1` new entries, the oldest of which is the copy of `B`. -/
theorem stroke_snapshots (s : AppData) (B : Pixbuf) (hB : s.pixbuf = some B) (hwf : B.wf)
    (hpm : s.paint_mode = true) :
    (∀ x y px py, s.painting = true →
      paint_brush_target B.width B.height s.widget_width s.widget_height x y
        = some (Target.pixel px py) →
      ∃ q, stamp_loop B px py (brush_radius s) s.selected_r s.selected_g s.selected_b
          = some q ∧
        on_mouse_motion s x y
          = some { s with undo_stack := gdk_pixbuf_copy (some B) :: s.undo_stack,
                          redo_stack := [], pixbuf := some q } ∧
        (0 ≤ brush_radius s → brush_radius s ≤ 32767 →
          ∀ x1 y1 : Int, 0 ≤ x1 → x1 < B.width → 0 ≤ y1 → y1 < B.height →
            ((x1 - px) * (x1 - px) + (y1 - py) * (y1 - py)
                ≤ brush_radius s * brush_radius s →
              rgb_at q x1 y1 = some (s.selected_r, s.selected_g, s.selected_b)) ∧
            (brush_radius s * brush_radius s
                < (x1 - px) * (x1 - px) + (y1 - py) * (y1 - py) →
              rgb_at q x1 y1 = rgb_at B x1 y1))) ∧
    (∀ (press : Int × Int) (moves : List (Int × Int)),
      (∀ m, m ∈ press :: moves →
        hits_pixel (paint_brush_target B.width B.height s.widget_width s.widget_height
          m.1 m.2) = true) →
      ∃ s1 pre, stroke s press moves = some s1 ∧ s1.painting = false ∧
        s1.undo_stack = pre ++ gdk_pixbuf_copy (some B) :: s.undo_stack ∧
        pre.length = moves.length ∧
        s1.undo_stack.length = s.undo_stack.length + moves.length + 1) := by
  constructor
  · intro x y px py hp ht
    obtain ⟨q, hq, _, e⟩ := paint_brush_inb s B x y px py hB hwf ht
    refine ⟨q, hq, ?_, ?_⟩
    · unfold on_mouse_motion
      rw [if_pos (by simp [hp, hpm])]
      exact e
    · intro hr0 hr
      exact stamp_loop_result_disc B hwf px py (brush_radius s) hr0 hr _ _ _ q hq
  · intro press moves hhit
    obtain ⟨px, py, ht⟩ := (hits_pixel_iff _).1 (hhit press (List.mem_cons_self press moves))
    obtain ⟨q, _, hs, e⟩ := paint_brush_inb { s with painting := true } B press.1 press.2
      px py hB hwf ht
    have e1 : on_mouse_press s press.1 press.2 = some { s with
        painting := true, undo_stack := some B :: s.undo_stack, redo_stack := [],
        pixbuf := some q } := by
      unfold on_mouse_press
      rw [if_pos hpm]
      exact e
    obtain ⟨s2, pre, h2, hst, hlen⟩ := motions_run_inb moves { s with
        painting := true, undo_stack := some B :: s.undo_stack, redo_stack := [],
        pixbuf := some q } q rfl hpm rfl (SameShape_wf hs hwf)
      (by
        intro m1 hm1
        rw [hs.1, hs.2.1]
        exact hhit m1 (List.mem_cons_of_mem press hm1))
    refine ⟨on_mouse_release s2, pre, ?_, rfl, hst, hlen, ?_⟩
    · unfold stroke
      rw [e1]
      simp only [Option.some_bind, h2]
    · show s2.undo_stack.length = _
      rw [hst]
      simp [hlen]
      omega

theorem stroke_snapshots_witness :
    (session2 true true).pixbuf = some img2 ∧ img2.wf ∧
    (session2 true true).paint_mode = true ∧
    (∃ q, on_mouse_motion (session2 true true) 2 0
        = some { session2 true true with undo_stack := [some img2], pixbuf := some q } ∧
      rgb_at q 1 0 = some (7, 7, 7) ∧ rgb_at q 0 0 = rgb_at img2 0 0) ∧
    (∀ m, m ∈ [((2 : Int), (0 : Int)), (1, 1), (2, 1)] →
      hits_pixel (paint_brush_target 2 2 4 2 m.1 m.2) = true) ∧
    ∃ s1 pre, stroke (session2 true true) (2, 0) [(1, 1), (2, 1)] = some s1 ∧
      s1.painting = false ∧ s1.undo_stack = pre ++ [some img2] ∧ pre.length = 2 := by
  have h := stroke_snapshots (session2 true true) img2 rfl (by decide) rfl
  have hm : ∀ m, m ∈ [((2 : Int), (0 : Int)), (1, 1), (2, 1)] →
      hits_pixel (paint_brush_target 2 2 4 2 m.1 m.2) = true := by decide
  refine ⟨rfl, by decide, rfl, ?_, hm, ?_⟩
  · obtain ⟨q, _, e, hdisc⟩ := h.1 2 0 1 0 rfl (by decide)
    have hd := hdisc (by decide) (by decide)
    refine ⟨q, e, ?_, ?_⟩
    · exact (hd 1 0 (by decide) (by decide) (by decide) (by decide)).1 (by decide)
    · exact (hd 0 0 (by decide) (by decide) (by decide) (by decide)).2 (by decide)
  · obtain ⟨s1, pre, e, hp, hst, hlen, _⟩ := h.2 (2, 0) [(1, 1), (2, 1)] hm
    exact ⟨s1, pre, e, hp, hst, hlen⟩

/-- C2 as stated fails: in the `Stroking` state a single pointer-motion sample changes
the undo stack, and a stroke of press, one motion sample and release leaves two new
entries on it. -/
theorem motion_keeps_undo_stack_counterexample :
    (session2 true true).painting = true ∧ (session2 true true).paint_mode = true ∧
    (session2 true true).undo_stack = [] ∧
    (on_mouse_motion (session2 true true) 2 0).map AppData.undo_stack = some [some img2] ∧
    (stroke (session2 false true) (2, 0) [(2, 0)]).map (fun s1 => s1.undo_stack.length)
      = some 2 := by
  decide

/-! ## Sampling -/

/-- At an in-bounds pixel of a well-formed image the three colour bytes exist and
`rgb_at` returns them. -/
theorem rgb_at_inb (pb : Pixbuf) (h : pb.wf) (px py : Int) (hx0 : 0 ≤ px)
    (hx1 : px < pb.width) (hy0 : 0 ≤ py) (hy1 : py < pb.height) :
    ∃ r g b,
      pb.pixels[(py * pb.rowstride + px * pb.n_channels).toNat]? = some r ∧
      pb.pixels[(py * pb.rowstride + px * pb.n_channels).toNat + 1]? = some g ∧
      pb.pixels[(py * pb.rowstride + px * pb.n_channels).toNat + 2]? = some b ∧
      rgb_at pb px py = some (r, g, b) := by
  lift px to Nat using hx0
  lift py to Nat using hy0
  have ha : px < pb.width := by exact_mod_cast hx1
  have hb : py < pb.height := by exact_mod_cast hy1
  have hlen := offset_bound pb h px py ha hb
  have e0 : ((py : Int) * (pb.rowstride : Int) + (px : Int) * (pb.n_channels : Int)).toNat
      = py * pb.rowstride + px * pb.n_channels := by
    have : (py : Int) * (pb.rowstride : Int) + (px : Int) * (pb.n_channels : Int)
        = ((py * pb.rowstride + px * pb.n_channels : Nat) : Int) := by push_cast; ring
    rw [this, Int.toNat_ofNat]
  rw [e0, rgb_at_nat]
  have g0 := List.getElem?_eq_getElem (show py * pb.rowstride + px * pb.n_channels
    < pb.pixels.length by omega)
  have g1 := List.getElem?_eq_getElem (show py * pb.rowstride + px * pb.n_channels + 1
    < pb.pixels.length by omega)
  have g2 := List.getElem?_eq_getElem hlen
  exact ⟨_, _, _, g0, g1, g2, by rw [g0, g1, g2]⟩

/-- Whatever `get_color_at_coordinates` returns differs from the state it was given in
the selected colour only. -/
theorem get_color_at_coordinates_frame (s s1 : AppData) (x y : Int)
    (h : get_color_at_coordinates s x y = some s1) :
    ∃ r g b, s1 = { s with selected_r := r, selected_g := g, selected_b := b } := by
  unfold get_color_at_coordinates at h
  cases hp : s.pixbuf with
  | none =>
    rw [hp] at h
    simp only [Option.some.injEq] at h
    refine ⟨s.selected_r, s.selected_g, s.selected_b, ?_⟩
    rw [← h, ← hp]
  | some pb =>
    rw [hp] at h
    simp only at h
    cases ht : get_color_at_coordinates_target pb.width pb.height s.widget_width
        s.widget_height x y with
    | none => rw [ht] at h; exact absurd h (by simp)
    | some t =>
      rw [ht] at h
      cases t with
      | out_of_bounds =>
        simp only [Option.some.injEq] at h
        refine ⟨s.selected_r, s.selected_g, s.selected_b, ?_⟩
        rw [← h, ← hp]
      | pixel px py =>
        simp only at h
        cases hc : rgb_at pb px py with
        | none => rw [hc] at h; exact absurd h (by simp)
        | some c =>
          obtain ⟨r, g, b⟩ := c
          rw [hc] at h
          simp only [Option.some.injEq] at h
          refine ⟨r, g, b, ?_⟩
          rw [← h, ← hp]

/-- C10: with paint mode off, whatever `on_mouse_press` returns has the same pixel
buffer, undo stack, redo stack and painting flag; if the position maps to the in-bounds
pixel `(px, py)` of a well-formed image, the press returns and the selected colour
becomes the three bytes stored from offset `py * rowstride + px * n_channels`; if it
maps out of bounds, the press returns the state unchanged. -/
theorem press_samples (s : AppData) (x y : Int) (hpm : s.paint_mode = false) :
    (∀ s1, on_mouse_press s x y = some s1 →
      s1.pixbuf = s.pixbuf ∧ s1.undo_stack = s.undo_stack ∧ s1.redo_stack = s.redo_stack ∧
        s1.painting = s.painting) ∧
    (∀ pb px py, s.pixbuf = some pb → pb.wf →
      get_color_at_coordinates_target pb.width pb.height s.widget_width s.widget_height x y
        = some (Target.pixel px py) →
      ∃ r g b,
        pb.pixels[(py * pb.rowstride + px * pb.n_channels).toNat]? = some r ∧
        pb.pixels[(py * pb.rowstride + px * pb.n_channels).toNat + 1]? = some g ∧
        pb.pixels[(py * pb.rowstride + px * pb.n_channels).toNat + 2]? = some b ∧
        on_mouse_press s x y
          = some { s with selected_r := r, selected_g := g, selected_b := b }) ∧
    (∀ pb, s.pixbuf = some pb →
      get_color_at_coordinates_target pb.width pb.height s.widget_width s.widget_height x y
        = some Target.out_of_bounds →
      on_mouse_press s x y = some s) := by
  have hpress : on_mouse_press s x y = get_color_at_coordinates s x y := by
    simp [on_mouse_press, hpm]
  refine ⟨?_, ?_, ?_⟩
  · intro s1 h1
    rw [hpress] at h1
    obtain ⟨r, g, b, e⟩ := get_color_at_coordinates_frame s s1 x y h1
    rw [e]
    exact ⟨rfl, rfl, rfl, rfl⟩
  · intro pb px py hp hwf ht
    have hrc : range_check pb.width pb.height
        ((get_color_at_coordinates_map pb.width pb.height s.widget_width s.widget_height
          x y).getD (0, 0)) = Target.pixel px py := by
      unfold get_color_at_coordinates_target at ht
      cases hm : get_color_at_coordinates_map pb.width pb.height s.widget_width
          s.widget_height x y with
      | none => rw [hm] at ht; exact absurd ht (by simp)
      | some p =>
        rw [hm] at ht
        simpa using ht
    obtain ⟨_, hx0, hx1, hy0, hy1⟩ := range_check_pixel _ _ _ px py hrc
    obtain ⟨r, g, b, g0, g1, g2, hc⟩ := rgb_at_inb pb hwf px py hx0 hx1 hy0 hy1
    refine ⟨r, g, b, g0, g1, g2, ?_⟩
    rw [hpress]
    unfold get_color_at_coordinates
    rw [hp]
    simp only [ht, hc]
  · intro pb hp ht
    rw [hpress]
    unfold get_color_at_coordinates
    rw [hp]
    simp only [ht]

theorem press_samples_witness :
    (session2 false false).paint_mode = false ∧
    get_color_at_coordinates_target 2 2 4 2 2 0 = some (Target.pixel 1 0) ∧
    get_color_at_coordinates_target 2 2 4 2 0 0 = some Target.out_of_bounds ∧
    on_mouse_press (session2 false false) 2 0
      = some { session2 false false with selected_r := 0, selected_g := 0, selected_b := 255 } ∧
    on_mouse_press (session2 false false) 0 0 = some (session2 false false) := by
  have h := press_samples (session2 false false)
  have h1 : get_color_at_coordinates_target 2 2 4 2 2 0 = some (Target.pixel 1 0) := by decide
  have h2 : get_color_at_coordinates_target 2 2 4 2 0 0 = some Target.out_of_bounds := by
    decide
  refine ⟨rfl, h1, h2, ?_, (h 0 0 rfl).2.2 img2 rfl h2⟩
  obtain ⟨r, g, b, g0, g1, g2, e⟩ := (h 2 0 rfl).2.1 img2 1 0 rfl (by decide) h1
  have r0 : r = 0 := by
    have : img2.pixels[3]? = some r := g0
    simpa [img2] using this.symm
  have r1 : g = 0 := by
    have : img2.pixels[4]? = some g := g1
    simpa [img2] using this.symm
  have r2 : b = 255 := by
    have : img2.pixels[5]? = some b := g2
    simpa [img2] using this.symm
  rw [e, r0, r1, r2]

/-! ## Concrete mappings -/

/-- C7, left/right letterbox: a 100×100 image in a 400×200 widget is shown 200 wide with
bars of width 100; the point (99, 50) lies in the left bar and is mapped to the image
pixel (0, 25) by both copies of the mapping.  Top/bottom letterbox: in a 200×400 widget
the bars are 100 high and the point (50, 99) in the top bar is mapped to pixel (25, 0). -/
theorem letterbox_bar_click_hits_pixel :
    (img_wider 100 100 400 200 = false ∧ scaled_width 100 100 200 = some 200 ∧
      letterbox_offset 400 200 = 100 ∧
      get_color_at_coordinates_target 100 100 400 200 99 50 = some (Target.pixel 0 25) ∧
      paint_brush_target 100 100 400 200 99 50 = some (Target.pixel 0 25)) ∧
    (img_wider 100 100 200 400 = true ∧ scaled_height 100 100 200 = some 200 ∧
      letterbox_offset 400 200 = 100 ∧
      get_color_at_coordinates_target 100 100 200 400 50 99 = some (Target.pixel 25 0) ∧
      paint_brush_target 100 100 200 400 50 99 = some (Target.pixel 25 0)) := by
  decide

/-- C8 as stated fails: the mapping of (100, 50) for a 200×100 image in a 400×100
widget is not the pixel (50, 50). -/
theorem map_100_50_counterexample :
    get_color_at_coordinates_target 200 100 400 100 100 50 ≠ some (Target.pixel 50 50) := by
  decide

/-- C8 (amended): a 200×100 image in a 400×100 widget is letterboxed left and right
(shown 200 wide, bars of width 100), and the widget point (100, 50) is mapped to the
image pixel (0, 50). -/
theorem map_100_50 :
    img_wider 200 100 400 100 = false ∧ scaled_width 200 100 100 = some 200 ∧
    letterbox_offset 400 200 = 100 ∧
    get_color_at_coordinates_target 200 100 400 100 100 50 = some (Target.pixel 0 50) ∧
    paint_brush_target 200 100 400 100 100 50 = some (Target.pixel 0 50) := by
  decide

/-- C9: the coordinates typed into the form are sent through the widget mapping.  For
the 2×2 image in a 4×2 widget the entries `1`, `0` pass the image range check, pixel
(1, 0) is blue, and the colour selected is the red of pixel (0, 0); with the entries
`0`, `0` the mapping reports out of bounds and the selected colour stays (7, 7, 7). -/
theorem manual_sample_uses_widget_mapping :
    atoi (session2 false false).x_entry = 1 ∧ atoi (session2 false false).y_entry = 0 ∧
    rgb_at img2 1 0 = some (0, 0, 255) ∧ rgb_at img2 0 0 = some (255, 0, 0) ∧
    on_get_color_clicked (session2 false false)
      = some { session2 false false with selected_r := 255, selected_g := 0, selected_b := 0 } ∧
    on_get_color_clicked { session2 false false with x_entry := ['0'] }
      = some { session2 false false with x_entry := ['0'] } := by
  decide

/-! ## Out-of-bounds paint and degenerate geometry -/

/-- C11: a paint at a widget point in the left letterbox bar, which the mapping reports
out of bounds, leaves the pixels as they were but pushes a snapshot on the undo stack and
discards the redo stack. -/
theorem out_of_bounds_paint_mutates_history :
    (session2_redo false true).pixbuf = some img2 ∧
    (session2_redo false true).undo_stack = [] ∧
    (session2_redo false true).redo_stack = [some img2] ∧
    paint_brush_target 2 2 4 2 0 0 = some Target.out_of_bounds ∧
    paint_brush (session2_redo false true) 0 0
      = some { session2_redo false true with undo_stack := [some img2], redo_stack := [] } := by
  decide

/-- C12: for a 2000×1 image in a 1000×600 widget (all four extents positive) the scaled
height is `(int)(1 * 0.5) = 0` and both copies of the mapping divide by it: neither an
image coordinate nor the out-of-bounds outcome is produced.  The same happens for a 4×1
image in a 2×2 widget. -/
theorem mapper_divides_by_zero :
    (img_wider 2000 1 1000 600 = true ∧ scaled_height 2000 1 1000 = some 0 ∧
      get_color_at_coordinates_target 2000 1 1000 600 500 300 = none ∧
      paint_brush_target 2000 1 1000 600 500 300 = none) ∧
    (img_wider 4 1 2 2 = true ∧ scaled_height 4 1 2 = some 0 ∧
      get_color_at_coordinates_target 4 1 2 2 0 0 = none ∧
      paint_brush_target 4 1 2 2 0 0 = none) := by
  decide

/-! ## Brush radius -/

/-- C17 as stated fails: with the smallest slider value 1 the radius is 0, and in the
initial state, where `brush_size` is still 0, the radius is 0 as well. -/
theorem brush_radius_counterexample :
    brush_radius (on_brush_size_changed (initial_state 4 2 (some img2)) 1) = 0 ∧
    brush_radius (initial_state 4 2 (some img2)) = 0 := by
  decide

/-- C17 (amended): after `on_brush_size_changed` with a value `v` in the slider's range
1..50 the radius used by `paint_brush` is `v / 2` (truncating), an integer between 0 and
25; it is at least 1 exactly when `v ≥ 2`. -/
theorem brush_radius_after_change (s : AppData) (v : Int) (h1 : 1 ≤ v) (h50 : v ≤ 50) :
    brush_radius (on_brush_size_changed s v) = v.tdiv 2 ∧
    0 ≤ brush_radius (on_brush_size_changed s v) ∧
    brush_radius (on_brush_size_changed s v) ≤ 25 ∧
    (1 ≤ brush_radius (on_brush_size_changed s v) ↔ 2 ≤ v) := by
  have e : brush_radius (on_brush_size_changed s v) = v.tdiv 2 := rfl
  have e2 : v.tdiv 2 = v / 2 := Int.tdiv_eq_ediv (by omega) (by omega)
  rw [e, e2]
  refine ⟨rfl, by omega, by omega, by omega⟩

theorem brush_radius_after_change_witness :
    (1 : Int) ≤ 10 ∧ (10 : Int) ≤ 50 ∧
    brush_radius (on_brush_size_changed (initial_state 4 2 (some img2)) 10) = 5 := by
  refine ⟨by decide, by decide, ?_⟩
  have h := (brush_radius_after_change (initial_state 4 2 (some img2)) 10 (by decide)
    (by decide)).1
  rw [h]
  decide

/-! ## History lengths -/

/-- C18: none of `save_undo_state`, `paint_brush`, `on_undo_clicked`, `on_redo_clicked`
makes both history stacks longer; `on_undo_clicked` on a non-empty undo stack and
`on_redo_clicked` on a non-empty redo stack move exactly one entry, so the sum of the two
lengths is unchanged. -/
theorem history_never_both_grow (s : AppData) :
    ¬ (s.undo_stack.length < (save_undo_state s).undo_stack.length ∧
        s.redo_stack.length < (save_undo_state s).redo_stack.length) ∧
    (∀ x y s1, paint_brush s x y = some s1 →
      ¬ (s.undo_stack.length < s1.undo_stack.length ∧
          s.redo_stack.length < s1.redo_stack.length)) ∧
    ¬ (s.undo_stack.length < (on_undo_clicked s).undo_stack.length ∧
        s.redo_stack.length < (on_undo_clicked s).redo_stack.length) ∧
    ¬ (s.undo_stack.length < (on_redo_clicked s).undo_stack.length ∧
        s.redo_stack.length < (on_redo_clicked s).redo_stack.length) ∧
    (s.undo_stack ≠ [] →
      (on_undo_clicked s).undo_stack.length + 1 = s.undo_stack.length ∧
      (on_undo_clicked s).redo_stack.length = s.redo_stack.length + 1 ∧
      (on_undo_clicked s).undo_stack.length + (on_undo_clicked s).redo_stack.length
        = s.undo_stack.length + s.redo_stack.length) ∧
    (s.redo_stack ≠ [] →
      (on_redo_clicked s).redo_stack.length + 1 = s.redo_stack.length ∧
      (on_redo_clicked s).undo_stack.length = s.undo_stack.length + 1 ∧
      (on_redo_clicked s).undo_stack.length + (on_redo_clicked s).redo_stack.length
        = s.undo_stack.length + s.redo_stack.length) := by
  refine ⟨?_, ?_, ?_, ?_, ?_, ?_⟩
  · cases hp : s.pixbuf with
    | none => simp [save_undo_state, hp]
    | some B => rw [save_undo_state_some s B hp]; simp
  · intro x y s1 h
    cases hp : s.pixbuf with
    | none =>
      have : s1 = s := by
        unfold paint_brush at h
        rw [hp] at h
        simpa using h.symm
      rw [this]; omega
    | some B =>
      obtain ⟨B1, e⟩ := paint_brush_result s B x y hp s1 h
      rw [e]; simp
  · cases hu : s.undo_stack with
    | nil => simp [on_undo_clicked, hu]
    | cons p rest => rw [on_undo_clicked_cons s p rest hu]; simp
  · cases hr : s.redo_stack with
    | nil => simp [on_redo_clicked, hr]
    | cons p rest => rw [on_redo_clicked_cons s p rest hr]; simp
  · intro hne
    cases hu : s.undo_stack with
    | nil => exact absurd hu hne
    | cons p rest =>
      rw [on_undo_clicked_cons s p rest hu]
      simp [hu]
      omega
  · intro hne
    cases hr : s.redo_stack with
    | nil => exact absurd hr hne
    | cons p rest =>
      rw [on_redo_clicked_cons s p rest hr]
      simp [hr]
      omega

theorem history_never_both_grow_witness :
    (save_undo_state (session2 false true)).undo_stack ≠ [] ∧
    (on_undo_clicked (save_undo_state (session2 false true))).undo_stack.length + 1
      = (save_undo_state (session2 false true)).undo_stack.length ∧
    (on_undo_clicked (save_undo_state (session2 false true))).redo_stack.length
      = (save_undo_state (session2 false true)).redo_stack.length + 1 := by
  have h := (history_never_both_grow (save_undo_state (session2 false true))).2.2.2.2.1
    (by decide)
  exact ⟨by decide, h.1, h.2.1⟩

/-! ## The mapping against the reference algorithm -/

/-- C15 as stated fails: for an 8×7 image in a 2×10 widget the source truncates
`7 * 0.25 = 1.75` to the scaled height 1 where rounding gives 2, and the point (0, 5) is
mapped to (0, 7) (out of bounds) by the source and to (0, 3) by the reference algorithm;
likewise for a 1600×303 image in a 400×600 widget (75.75: 75 against 76) at (0, 337). -/
theorem round_reference_counterexample :
    (scaled_height 8 7 2 = some 1 ∧ round_nearest 7 2 8 = 2 ∧
      get_color_at_coordinates_map 8 7 2 10 0 5 = some (0, 7) ∧
      spec_map 8 7 2 10 0 5 = some (0, 3)) ∧
    (scaled_height 1600 303 400 = some 75 ∧ round_nearest 303 400 1600 = 76 ∧
      get_color_at_coordinates_map 1600 303 400 600 0 337 = some (0, 303) ∧
      spec_map 1600 303 400 600 0 337 = some (0, 299)) := by
  decide

/-- C15 (amended): for every geometry and every widget point, both copies of the
mapping in the source equal the reference algorithm in which the scaled extent is the
`double` product `Ih * (Vw / Iw)` (respectively `Iw * (Vh / Ih)`) truncated toward zero
by the `(int)` cast, with the offsets and the image coordinates under truncating integer
division. -/
theorem map_eq_trunc_reference (Iw Ih Vw Vh : Nat) (x y : Int) :
    get_color_at_coordinates_map Iw Ih Vw Vh x y = trunc_map Iw Ih Vw Vh x y ∧
    paint_brush_map Iw Ih Vw Vh x y = trunc_map Iw Ih Vw Vh x y := by
  unfold get_color_at_coordinates_map paint_brush_map trunc_map letterbox_map letterbox_offset
  cases img_wider Iw Ih Vw Vh <;> simp

/-! ## Points on the displayed image -/

theorem tdiv_bounds (a b c : Int) (ha : 0 ≤ a) (hb : 0 < b) (h : a < c * b) :
    0 ≤ a.tdiv b ∧ a.tdiv b < c := by
  rw [Int.tdiv_eq_ediv ha (le_of_lt hb)]
  exact ⟨Int.ediv_nonneg ha (le_of_lt hb), Int.ediv_lt_of_lt_mul hb h⟩

theorem range_check_inb (W H : Nat) (ix iy : Int) (h1 : 0 ≤ ix) (h2 : ix < W) (h3 : 0 ≤ iy)
    (h4 : iy < H) : range_check W H (ix, iy) = Target.pixel ix iy := by
  unfold range_check
  rw [if_neg (by simp only; omega)]

/-- C19: for positive image and widget extents and a positive scaled extent, every widget
point inside the displayed image rectangle is mapped, by both copies of the mapping, to
an image coordinate `(ix, iy)` with `0 ≤ ix < Iw` and `0 ≤ iy < Ih`. -/
theorem displayed_point_hits_pixel (Iw Ih Vw Vh : Nat) (x y : Int) (hIw : 0 < Iw)
    (hIh : 0 < Ih) (hVw : 0 < Vw) (hVh : 0 < Vh) :
    (img_wider Iw Ih Vw Vh = false → ∀ sw, scaled_width Iw Ih Vh = some sw → 0 < sw →
      letterbox_offset Vw sw ≤ x → x < letterbox_offset Vw sw + sw → 0 ≤ y → y < Vh →
      ∃ ix iy, get_color_at_coordinates_target Iw Ih Vw Vh x y = some (Target.pixel ix iy) ∧
        paint_brush_target Iw Ih Vw Vh x y = some (Target.pixel ix iy) ∧
        0 ≤ ix ∧ ix < Iw ∧ 0 ≤ iy ∧ iy < Ih) ∧
    (img_wider Iw Ih Vw Vh = true → ∀ sh, scaled_height Iw Ih Vw = some sh → 0 < sh →
      0 ≤ x → x < Vw → letterbox_offset Vh sh ≤ y → y < letterbox_offset Vh sh + sh →
      ∃ ix iy, get_color_at_coordinates_target Iw Ih Vw Vh x y = some (Target.pixel ix iy) ∧
        paint_brush_target Iw Ih Vw Vh x y = some (Target.pixel ix iy) ∧
        0 ≤ ix ∧ ix < Iw ∧ 0 ≤ iy ∧ iy < Ih) := by
  have cIw : (0 : Int) < (Iw : Int) := by exact_mod_cast hIw
  have cIh : (0 : Int) < (Ih : Int) := by exact_mod_cast hIh
  have cVw : (0 : Int) < (Vw : Int) := by exact_mod_cast hVw
  have cVh : (0 : Int) < (Vh : Int) := by exact_mod_cast hVh
  constructor
  · intro hw sw hsw hpos hx0 hx1 hy0 hy1
    obtain ⟨a1, a2⟩ := tdiv_bounds ((x - letterbox_offset Vw sw) * Iw) sw Iw
      (mul_nonneg (by omega) (le_of_lt cIw)) hpos
      (by rw [mul_comm (Iw : Int) sw]; exact mul_lt_mul_of_pos_right (by omega) cIw)
    obtain ⟨b1, b2⟩ := tdiv_bounds (y * Ih) Vh Ih (mul_nonneg hy0 (le_of_lt cIh)) cVh
      (by rw [mul_comm (Ih : Int) Vh]; exact mul_lt_mul_of_pos_right hy1 cIh)
    have hm : get_color_at_coordinates_map Iw Ih Vw Vh x y
        = some (((x - letterbox_offset Vw sw) * Iw).tdiv sw, (y * Ih).tdiv Vh) := by
      unfold get_color_at_coordinates_map
      simp [hw, hsw, cdiv, ne_of_gt hpos, ne_of_gt cVh]
    have hm2 : paint_brush_map Iw Ih Vw Vh x y
        = some (((x - letterbox_offset Vw sw) * Iw).tdiv sw, (y * Ih).tdiv Vh) := by
      unfold paint_brush_map
      simp [hw, hsw, cdiv, ne_of_gt hpos, ne_of_gt cVh]
    refine ⟨_, _, ?_, ?_, a1, a2, b1, b2⟩
    · unfold get_color_at_coordinates_target
      rw [hm, Option.map_some', range_check_inb _ _ _ _ a1 a2 b1 b2]
    · unfold paint_brush_target
      rw [hm2, Option.map_some', range_check_inb _ _ _ _ a1 a2 b1 b2]
  · intro hw sh hsh hpos hx0 hx1 hy0 hy1
    obtain ⟨a1, a2⟩ := tdiv_bounds (x * Iw) Vw Iw (mul_nonneg hx0 (le_of_lt cIw)) cVw
      (by rw [mul_comm (Iw : Int) Vw]; exact mul_lt_mul_of_pos_right hx1 cIw)
    obtain ⟨b1, b2⟩ := tdiv_bounds ((y - letterbox_offset Vh sh) * Ih) sh Ih
      (mul_nonneg (by omega) (le_of_lt cIh)) hpos
      (by rw [mul_comm (Ih : Int) sh]; exact mul_lt_mul_of_pos_right (by omega) cIh)
    have hm : get_color_at_coordinates_map Iw Ih Vw Vh x y
        = some ((x * Iw).tdiv Vw, ((y - letterbox_offset Vh sh) * Ih).tdiv sh) := by
      unfold get_color_at_coordinates_map
      simp [hw, hsh, cdiv, ne_of_gt hpos, ne_of_gt cVw]
    have hm2 : paint_brush_map Iw Ih Vw Vh x y
        = some ((x * Iw).tdiv Vw, ((y - letterbox_offset Vh sh) * Ih).tdiv sh) := by
      unfold paint_brush_map
      simp [hw, hsh, cdiv, ne_of_gt hpos, ne_of_gt cVw]
    refine ⟨_, _, ?_, ?_, a1, a2, b1, b2⟩
    · unfold get_color_at_coordinates_target
      rw [hm, Option.map_some', range_check_inb _ _ _ _ a1 a2 b1 b2]
    · unfold paint_brush_target
      rw [hm2, Option.map_some', range_check_inb _ _ _ _ a1 a2 b1 b2]

theorem displayed_point_hits_pixel_witness :
    (0 < 100 ∧ 0 < 100 ∧ 0 < 400 ∧ 0 < 200) ∧ img_wider 100 100 400 200 = false ∧
    scaled_width 100 100 200 = some 200 ∧ letterbox_offset 400 200 = 100 ∧
    ∃ ix iy, get_color_at_coordinates_target 100 100 400 200 100 50
        = some (Target.pixel ix iy) ∧
      paint_brush_target 100 100 400 200 100 50 = some (Target.pixel ix iy) ∧
      0 ≤ ix ∧ ix < (100 : Nat) ∧ 0 ≤ iy ∧ iy < (100 : Nat) := by
  have hsw : scaled_width 100 100 200 = some 200 := by decide
  have ho : letterbox_offset 400 200 = 100 := by decide
  refine ⟨by decide, by decide, hsw, ho, ?_⟩
  exact (displayed_point_hits_pixel 100 100 400 200 100 50 (by decide) (by decide)
    (by decide) (by decide)).1 (by decide) 200 hsw (by decide) (by rw [ho])
    (by rw [ho]; decide) (by decide) (by decide)

/-! ## Picking and painting -/

/-- C20: the two copies of the mapping compute the same `(px, py)` and the same range
decision for every geometry and point; hence, when a point maps to the pixel `(px, py)`,
`get_color_at_coordinates` reads the colour of `(px, py)` and `paint_brush` runs the stamp
loop centred at that same `(px, py)`. -/
theorem pick_and_paint_same_pixel :
    (∀ (Iw Ih Vw Vh : Nat) (x y : Int),
      paint_brush_map Iw Ih Vw Vh x y = get_color_at_coordinates_map Iw Ih Vw Vh x y ∧
      paint_brush_target Iw Ih Vw Vh x y = get_color_at_coordinates_target Iw Ih Vw Vh x y) ∧
    (∀ (s : AppData) (B : Pixbuf) (x y px py : Int), s.pixbuf = some B →
      get_color_at_coordinates_target B.width B.height s.widget_width s.widget_height x y
        = some (Target.pixel px py) →
      get_color_at_coordinates s x y
        = (rgb_at B px py).map (fun c =>
            { s with selected_r := c.1, selected_g := c.2.1, selected_b := c.2.2 }) ∧
      paint_brush s x y
        = (stamp_loop B px py (brush_radius s) s.selected_r s.selected_g s.selected_b).map
            (fun q => { save_undo_state s with pixbuf := some q })) := by
  have hmap : ∀ (Iw Ih Vw Vh : Nat) (x y : Int),
      paint_brush_map Iw Ih Vw Vh x y = get_color_at_coordinates_map Iw Ih Vw Vh x y :=
    fun _ _ _ _ _ _ => rfl
  have htar : ∀ (Iw Ih Vw Vh : Nat) (x y : Int),
      paint_brush_target Iw Ih Vw Vh x y = get_color_at_coordinates_target Iw Ih Vw Vh x y :=
    fun _ _ _ _ _ _ => rfl
  refine ⟨fun Iw Ih Vw Vh x y => ⟨hmap Iw Ih Vw Vh x y, htar Iw Ih Vw Vh x y⟩, ?_⟩
  intro s B x y px py hB ht
  constructor
  · unfold get_color_at_coordinates
    rw [hB]
    simp only [ht]
    cases rgb_at B px py with
    | none => rfl
    | some c =>
      obtain ⟨r, g, b⟩ := c
      rfl
  · unfold paint_brush
    rw [hB]
    simp only [htar, ht, brush_radius]
    cases stamp_loop B px py (s.brush_size.tdiv 2) s.selected_r s.selected_g s.selected_b with
    | none => rfl
    | some q => rfl

theorem pick_and_paint_same_pixel_witness :
    (session2 false true).pixbuf = some img2 ∧
    get_color_at_coordinates_target 2 2 4 2 2 0 = some (Target.pixel 1 0) ∧
    get_color_at_coordinates (session2 false true) 2 0
      = (rgb_at img2 1 0).map (fun c =>
          { session2 false true with selected_r := c.1, selected_g := c.2.1,
                                     selected_b := c.2.2 }) ∧
    paint_brush (session2 false true) 2 0
      = (stamp_loop img2 1 0 0 7 7 7).map
          (fun q => { save_undo_state (session2 false true) with pixbuf := some q }) := by
  have ht : get_color_at_coordinates_target 2 2 4 2 2 0 = some (Target.pixel 1 0) := by decide
  have h := pick_and_paint_same_pixel.2 (session2 false true) img2 2 0 1 0 rfl ht
  exact ⟨rfl, ht, h.1, h.2⟩

/-! ## The painting flag -/

theorem paint_brush_flags (s s1 : AppData) (x y : Int) (h : paint_brush s x y = some s1) :
    s1.painting = s.painting ∧ s1.paint_mode = s.paint_mode := by
  cases hp : s.pixbuf with
  | none =>
    have : s1 = s := by
      unfold paint_brush at h
      rw [hp] at h
      simpa using h.symm
    rw [this]
    exact ⟨rfl, rfl⟩
  | some B =>
    obtain ⟨B1, e⟩ := paint_brush_result s B x y hp s1 h
    rw [e]
    exact ⟨rfl, rfl⟩

theorem get_color_at_coordinates_flags (s s1 : AppData) (x y : Int)
    (h : get_color_at_coordinates s x y = some s1) :
    s1.painting = s.painting ∧ s1.paint_mode = s.paint_mode := by
  obtain ⟨r, g, b, e⟩ := get_color_at_coordinates_frame s s1 x y h
  rw [e]
  exact ⟨rfl, rfl⟩

theorem on_get_color_clicked_flags (s s1 : AppData) (h : on_get_color_clicked s = some s1) :
    s1.painting = s.painting ∧ s1.paint_mode = s.paint_mode := by
  unfold on_get_color_clicked at h
  split at h
  · simp only [Option.some.injEq] at h
    rw [← h]
    exact ⟨rfl, rfl⟩
  · cases hp : s.pixbuf with
    | none =>
      rw [hp] at h
      simp only [Option.some.injEq] at h
      rw [← h]
      exact ⟨rfl, rfl⟩
    | some pb =>
      rw [hp] at h
      simp only at h
      split at h
      · simp only [Option.some.injEq] at h
        rw [← h]
        exact ⟨rfl, rfl⟩
      · exact get_color_at_coordinates_flags s s1 _ _ h

theorem on_undo_clicked_flags (s : AppData) :
    (on_undo_clicked s).painting = s.painting ∧ (on_undo_clicked s).paint_mode = s.paint_mode := by
  unfold on_undo_clicked
  cases s.undo_stack <;> exact ⟨rfl, rfl⟩

theorem on_redo_clicked_flags (s : AppData) :
    (on_redo_clicked s).painting = s.painting ∧ (on_redo_clicked s).paint_mode = s.paint_mode := by
  unfold on_redo_clicked
  cases s.redo_stack <;> exact ⟨rfl, rfl⟩

/-- Every handler keeps the property that the painting flag implies paint mode. -/
theorem step_keeps_flag (s s1 : AppData) (e : Event)
    (hinv : s.painting = true → s.paint_mode = true) (h : step s e = some s1) :
    s1.painting = true → s1.paint_mode = true := by
  cases e with
  | press x y =>
    simp only [step, on_mouse_press] at h
    by_cases hpm : s.paint_mode = true
    · rw [if_pos hpm] at h
      obtain ⟨_, f2⟩ := paint_brush_flags _ s1 x y h
      intro _
      rw [f2]
      exact hpm
    · rw [if_neg hpm] at h
      obtain ⟨f1, f2⟩ := get_color_at_coordinates_flags s s1 x y h
      rw [f1, f2]
      exact hinv
  | release =>
    simp only [step, on_mouse_release, Option.some.injEq] at h
    rw [← h]
    intro hf
    exact absurd hf (by simp)
  | motion x y =>
    simp only [step, on_mouse_motion] at h
    split at h
    · obtain ⟨f1, f2⟩ := paint_brush_flags s s1 x y h
      rw [f1, f2]
      exact hinv
    · simp only [Option.some.injEq] at h
      rw [← h]
      exact hinv
  | paint_button =>
    simp only [step, on_paint_button_clicked, Option.some.injEq] at h
    rw [← h]
    cases hpm : s.paint_mode with
    | true => simp
    | false =>
      have : s.painting = false := by
        cases hp : s.painting with
        | false => rfl
        | true => rw [hinv hp] at hpm; exact absurd hpm (by simp)
      simp [this]
  | undo =>
    simp only [step, Option.some.injEq] at h
    rw [← h, (on_undo_clicked_flags s).1, (on_undo_clicked_flags s).2]
    exact hinv
  | redo =>
    simp only [step, Option.some.injEq] at h
    rw [← h, (on_redo_clicked_flags s).1, (on_redo_clicked_flags s).2]
    exact hinv
  | get_color =>
    simp only [step] at h
    obtain ⟨f1, f2⟩ := on_get_color_clicked_flags s s1 h
    rw [f1, f2]
    exact hinv
  | brush_size v =>
    simp only [step, on_brush_size_changed, Option.some.injEq] at h
    rw [← h]
    exact hinv

theorem run_keeps_flag (events : List Event) : ∀ (s s1 : AppData),
    (s.painting = true → s.paint_mode = true) → run s events = some s1 →
    (s1.painting = true → s1.paint_mode = true) := by
  induction events with
  | nil =>
    intro s s1 hinv h
    have : s1 = s := by
      simp only [run, List.foldlM_nil] at h
      exact (Option.some.inj h).symm
    rw [this]
    exact hinv
  | cons e l ih =>
    intro s s1 hinv h
    simp only [run, List.foldlM_cons] at h
    cases hs : step s e with
    | none => rw [hs] at h; exact absurd h (by simp)
    | some s2 =>
      rw [hs] at h
      exact ih s2 s1 (step_keeps_flag s s2 e hinv hs) h

/-- C16: in every state reached from the initial state by any sequence of handler calls
the painting flag is set only if paint mode is on; and in any state, when
`on_paint_button_clicked` switches paint mode off, the painting flag is off afterwards and
a following motion event returns the state unchanged (no stamp, no snapshot). -/
theorem painting_implies_paint_mode (w h : Nat) (img : Option Pixbuf) (events : List Event)
    (s : AppData) (hrun : run (initial_state w h img) events = some s) :
    (s.painting = true → s.paint_mode = true) ∧
    (∀ t : AppData, (on_paint_button_clicked t).paint_mode = false →
      (on_paint_button_clicked t).painting = false ∧
      ∀ x y, on_mouse_motion (on_paint_button_clicked t) x y
        = some (on_paint_button_clicked t)) := by
  refine ⟨run_keeps_flag events _ s (fun hf => absurd hf (by simp [initial_state])) hrun, ?_⟩
  intro t ht
  have hp : (on_paint_button_clicked t).painting = false := by
    unfold on_paint_button_clicked at ht ⊢
    cases hpm : t.paint_mode with
    | true => simp
    | false => simp [hpm] at ht
  refine ⟨hp, fun x y => ?_⟩
  unfold on_mouse_motion
  rw [hp]
  simp

theorem painting_implies_paint_mode_witness :
    ∃ s, run (initial_state 4 2 (some img2))
        [Event.paint_button, Event.press 2 0, Event.motion 1 1, Event.paint_button,
          Event.motion 2 1] = some s ∧
      (s.painting = true → s.paint_mode = true) := by
  have hne : (run (initial_state 4 2 (some img2))
      [Event.paint_button, Event.press 2 0, Event.motion 1 1, Event.paint_button,
        Event.motion 2 1]).isSome = true := by decide
  obtain ⟨s, hs⟩ := Option.isSome_iff_exists.1 hne
  exact ⟨s, hs, (painting_implies_paint_mode 4 2 (some img2) _ s hs).1⟩

/-! ## The writes of the stamp loop -/

theorem write_rgb_length (S N : Nat) (r g b : Byte) (p : List Byte) (t : Int × Int) :
    (write_rgb S N r g b p t).length = p.length := by
  simp [write_rgb, set_rgb]

theorem foldl_write_rgb_length (S N : Nat) (r g b : Byte) (l : List (Int × Int)) :
    ∀ p : List Byte, (l.foldl (write_rgb S N r g b) p).length = p.length := by
  induction l with
  | nil => intro p; rfl
  | cons t l ih =>
    intro p
    rw [List.foldl_cons, ih, write_rgb_length]

theorem getElem?_set_rgb_ne (p : List Byte) (o j : Nat) (r g b : Byte) (h0 : j ≠ o)
    (h1 : j ≠ o + 1) (h2 : j ≠ o + 2) : (set_rgb p o r g b)[j]? = p[j]? := by
  unfold set_rgb
  rw [List.getElem?_set_ne (fun e => h2 e.symm), List.getElem?_set_ne (fun e => h1 e.symm),
    List.getElem?_set_ne (fun e => h0 e.symm)]

/-- Bytes that are not one of the three colour bytes of a written pixel keep their value
through any sequence of pixel writes. -/
theorem foldl_write_rgb_frame (S N : Nat) (r g b : Byte) (j : Nat) (l : List (Int × Int)) :
    ∀ p : List Byte,
      (∀ t, t ∈ l → ∀ k : Nat, k ≤ 2 → j ≠ (t.2 * S + t.1 * N).toNat + k) →
      (l.foldl (write_rgb S N r g b) p)[j]? = p[j]? := by
  induction l with
  | nil => intro p _; rfl
  | cons t l ih =>
    intro p h
    rw [List.foldl_cons, ih _ (fun t1 ht1 => h t1 (List.mem_cons_of_mem t ht1))]
    have ht := h t (List.mem_cons_self t l)
    exact getElem?_set_rgb_ne p _ j r g b (ht 0 (by omega)) (ht 1 (by omega)) (ht 2 (by omega))

/-- Lines 205-211 at an in-bounds pixel given by `int` coordinates. -/
theorem stamp_pixel_write (pb : Pixbuf) (h : pb.wf) (nx ny : Int) (r g b : Byte)
    (hin : nx ≥ 0 ∧ ny ≥ 0 ∧ nx < pb.width ∧ ny < pb.height) :
    stamp_pixel pb nx ny r g b =
      some { pb with pixels := write_rgb pb.rowstride pb.n_channels r g b pb.pixels (nx, ny) } := by
  obtain ⟨h1, h2, h3, h4⟩ := hin
  lift nx to Nat using h1
  lift ny to Nat using h2
  have ha : nx < pb.width := by exact_mod_cast h3
  have hb : ny < pb.height := by exact_mod_cast h4
  rw [stamp_pixel_inb pb h nx ny ha hb r g b]
  have e0 : ((ny : Int) * (pb.rowstride : Int) + (nx : Int) * (pb.n_channels : Int)).toNat
      = ny * pb.rowstride + nx * pb.n_channels := by
    have : (ny : Int) * (pb.rowstride : Int) + (nx : Int) * (pb.n_channels : Int)
        = ((ny * pb.rowstride + nx * pb.n_channels : Nat) : Int) := by push_cast; ring
    rw [this, Int.toNat_ofNat]
  simp only [write_rgb, e0]

/-- A loop whose every step performs the writes `T a` performs their concatenation. -/
theorem foldlM_writes {α : Type} (pb0 : Pixbuf) (f : Pixbuf → α → Option Pixbuf)
    (T : α → List (Int × Int)) (S N : Nat) (r g b : Byte)
    (hstep : ∀ acc a, SameShape pb0 acc →
      f acc a = some { acc with pixels := (T a).foldl (write_rgb S N r g b) acc.pixels }) :
    ∀ (l : List α) (acc : Pixbuf), SameShape pb0 acc →
      l.foldlM f acc
        = some { acc with pixels := (l.flatMap T).foldl (write_rgb S N r g b) acc.pixels } := by
  intro l
  induction l with
  | nil => intro acc _; rfl
  | cons a l ih =>
    intro acc hacc
    have hs : SameShape pb0
        { acc with pixels := (T a).foldl (write_rgb S N r g b) acc.pixels } := by
      obtain ⟨a1, a2, a3, a4, a5⟩ := hacc
      exact ⟨a1, a2, a3, a4, by rw [← a5]; exact foldl_write_rgb_length S N r g b _ _⟩
    have hrest := ih _ hs
    rw [List.foldlM_cons, hstep acc a hacc, List.flatMap_cons, List.foldl_append]
    exact hrest

/-- The stamp loop as a sequence of pixel writes: on a well-formed image it returns the
image whose bytes are those of `pb` after the writes of lines 207-210 at the pixels
`stamp_targets`, in order. -/
theorem stamp_loop_eq_writes (pb : Pixbuf) (h : pb.wf) (px py radius : Int) (r g b : Byte) :
    stamp_loop pb px py radius r g b =
      some { pb with pixels :=
        ((stamp_targets pb px py radius).foldl (write_rgb pb.rowstride pb.n_channels r g b)
          pb.pixels) } := by
  unfold stamp_loop stamp_targets
  apply foldlM_writes pb _ _ pb.rowstride pb.n_channels r g b _ _ pb (SameShape_refl pb)
  intro acc dy hacc
  unfold stamp_row
  apply foldlM_writes pb _ _ pb.rowstride pb.n_channels r g b _ _ acc hacc
  intro acc1 dx hacc1
  have hwf1 := SameShape_wf hacc1 h
  obtain ⟨a1, a2, a3, a4, _⟩ := hacc1
  by_cases hd : in_disc dx dy radius = true
  · by_cases hin : px + dx ≥ 0 ∧ py + dy ≥ 0 ∧ px + dx < pb.width ∧ py + dy < pb.height
    · rw [if_pos hd, if_pos ⟨hd, hin⟩]
      rw [stamp_pixel_write acc1 hwf1 _ _ r g b (by rw [a1, a2]; exact hin), a3, a4]
      rfl
    · rw [if_pos hd, if_neg (fun hc => hin hc.2)]
      rw [stamp_pixel_oob acc1 _ _ r g b (by rw [a1, a2]; exact hin)]
      rfl
  · rw [if_neg hd, if_neg (fun hc => hd hc.1)]
    rfl

theorem mem_stamp_targets (pb : Pixbuf) (px py radius : Int) (t : Int × Int) :
    t ∈ stamp_targets pb px py radius ↔
      ∃ dy, (-radius ≤ dy ∧ dy ≤ radius) ∧ ∃ dx, (-radius ≤ dx ∧ dx ≤ radius) ∧
        in_disc dx dy radius = true ∧
        (px + dx ≥ 0 ∧ py + dy ≥ 0 ∧ px + dx < pb.width ∧ py + dy < pb.height) ∧
        t = (px + dx, py + dy) := by
  unfold stamp_targets
  simp only [List.mem_flatMap, mem_intRange]
  constructor
  · rintro ⟨dy, hdy, dx, hdx, hmem⟩
    by_cases hc : in_disc dx dy radius = true ∧
        (px + dx ≥ 0 ∧ py + dy ≥ 0 ∧ px + dx < pb.width ∧ py + dy < pb.height)
    · rw [if_pos hc] at hmem
      exact ⟨dy, hdy, dx, hdx, hc.1, hc.2, List.mem_singleton.1 hmem⟩
    · rw [if_neg hc] at hmem
      exact absurd hmem (List.not_mem_nil t)
  · rintro ⟨dy, hdy, dx, hdx, hd, hin, rfl⟩
    refine ⟨dy, hdy, dx, hdx, ?_⟩
    rw [if_pos ⟨hd, hin⟩]
    exact List.mem_singleton.2 rfl

theorem offset_lt_rows (pb : Pixbuf) (h : pb.wf) (a b k : Nat) (ha : a < pb.width)
    (hb : b < pb.height) (hk : k ≤ 2) :
    b * pb.rowstride + a * pb.n_channels + k < pb.height * pb.rowstride := by
  obtain ⟨h1, h2, _⟩ := h
  have e1 : (a + 1) * pb.n_channels ≤ pb.width * pb.n_channels := Nat.mul_le_mul_right _ ha
  have e2 : (b + 1) * pb.rowstride ≤ pb.height * pb.rowstride := Nat.mul_le_mul_right _ hb
  rw [Nat.add_mul] at e1 e2
  omega

/-- C13: on a well-formed image, for every centre, radius and colour, the stamp loop
returns and what it does is the sequence of pixel writes at `stamp_targets`; every written
pixel lies in the square `[px - radius, px + radius] × [py - radius, py + radius]` and
inside the image, and each of its three byte offsets `ny * rowstride + nx * n_channels + k`
is at least 0 and below `height * rowstride`. -/
theorem stamp_writes_in_buffer (pb : Pixbuf) (hwf : pb.wf) (px py radius : Int)
    (r g b : Byte) :
    stamp_loop pb px py radius r g b =
      some { pb with pixels :=
        ((stamp_targets pb px py radius).foldl (write_rgb pb.rowstride pb.n_channels r g b)
          pb.pixels) } ∧
    ∀ t, t ∈ stamp_targets pb px py radius →
      (px - radius ≤ t.1 ∧ t.1 ≤ px + radius ∧ py - radius ≤ t.2 ∧ t.2 ≤ py + radius) ∧
      (0 ≤ t.1 ∧ t.1 < pb.width ∧ 0 ≤ t.2 ∧ t.2 < pb.height) ∧
      ∀ k : Int, 0 ≤ k → k ≤ 2 →
        0 ≤ t.2 * pb.rowstride + t.1 * pb.n_channels + k ∧
        t.2 * pb.rowstride + t.1 * pb.n_channels + k
          < (pb.height : Int) * (pb.rowstride : Int) := by
  refine ⟨stamp_loop_eq_writes pb hwf px py radius r g b, ?_⟩
  intro t ht
  obtain ⟨dy, hdy, dx, hdx, _, hin, rfl⟩ := (mem_stamp_targets pb px py radius t).1 ht
  obtain ⟨i1, i2, i3, i4⟩ := hin
  refine ⟨by simp only; omega, ⟨i1, i3, i2, i4⟩, ?_⟩
  intro k hk0 hk2
  simp only
  generalize px + dx = nx at i1 i3 ⊢
  generalize py + dy = ny at i2 i4 ⊢
  lift nx to Nat using i1
  lift ny to Nat using i2
  lift k to Nat using hk0
  have ha : nx < pb.width := by exact_mod_cast i3
  have hb : ny < pb.height := by exact_mod_cast i4
  have hk : k ≤ 2 := by exact_mod_cast hk2
  have := offset_lt_rows pb hwf nx ny k ha hb hk
  constructor
  · positivity
  · exact_mod_cast this

theorem stamp_writes_in_buffer_witness :
    img10.wf ∧
    ∀ t, t ∈ stamp_targets img10 0 0 5 → (0 ≤ t.1 ∧ t.1 ≤ 5) ∧ (0 ≤ t.2 ∧ t.2 ≤ 5) := by
  refine ⟨by decide, fun t ht => ?_⟩
  obtain ⟨h1, h2, _⟩ := (stamp_writes_in_buffer img10 (by decide) 0 0 5 0 0 0).2 t ht
  omega

/-! ## Frame of the pixel writes -/

/-- Line 325 guards the same pixels as line 205, so `paint_pixel` is the clipped write of
the stamp loop applied to the live buffer. -/
theorem paint_pixel_eq_stamp_pixel (s : AppData) (pb : Pixbuf) (x y : Int)
    (hp : s.pixbuf = some pb) :
    paint_pixel s x y =
      (stamp_pixel pb x y s.selected_r s.selected_g s.selected_b).map
        (fun q => { s with pixbuf := some q }) := by
  unfold paint_pixel stamp_pixel
  rw [hp]
  by_cases hin : x ≥ 0 ∧ y ≥ 0 ∧ x < pb.width ∧ y < pb.height
  · have hneg : ¬ (x < 0 ∨ y < 0 ∨ x ≥ pb.width ∨ y ≥ pb.height) := by omega
    simp only [if_neg hneg, if_pos hin]
    cases poke pb.pixels (y * pb.rowstride + x * pb.n_channels) s.selected_r with
    | none => rfl
    | some p1 =>
      simp only [Option.some_bind]
      cases poke p1 (y * pb.rowstride + x * pb.n_channels + 1) s.selected_g with
      | none => rfl
      | some p2 =>
        simp only [Option.some_bind]
        cases poke p2 (y * pb.rowstride + x * pb.n_channels + 2) s.selected_b with
        | none => rfl
        | some p3 => rfl
  · have hpos : x < 0 ∨ y < 0 ∨ x ≥ pb.width ∨ y ≥ pb.height := by omega
    simp only [if_pos hpos, if_neg hin, Option.map_some']
    rw [← hp]

/-- The bytes after the clipped write of one in-bounds pixel of a well-formed image. -/
theorem stamp_pixel_bytes (pb : Pixbuf) (hwf : pb.wf) (nx ny : Int) (r g b : Byte)
    (hin : nx ≥ 0 ∧ ny ≥ 0 ∧ nx < pb.width ∧ ny < pb.height) :
    ∃ q, stamp_pixel pb nx ny r g b = some q ∧ SameShape pb q ∧
      ∀ j : Nat, q.pixels[j]? =
        if j = (ny * pb.rowstride + nx * pb.n_channels).toNat then some r
        else if j = (ny * pb.rowstride + nx * pb.n_channels).toNat + 1 then some g
        else if j = (ny * pb.rowstride + nx * pb.n_channels).toNat + 2 then some b
        else pb.pixels[j]? := by
  refine ⟨_, stamp_pixel_write pb hwf nx ny r g b hin,
    ⟨rfl, rfl, rfl, rfl, write_rgb_length _ _ _ _ _ _ _⟩, ?_⟩
  intro j
  obtain ⟨h1, h2, h3, h4⟩ := hin
  have hlen : (ny * pb.rowstride + nx * pb.n_channels).toNat + 2 < pb.pixels.length := by
    lift nx to Nat using h1
    lift ny to Nat using h2
    have ha : nx < pb.width := by exact_mod_cast h3
    have hb : ny < pb.height := by exact_mod_cast h4
    have := offset_bound pb hwf nx ny ha hb
    have e : (ny : Int) * (pb.rowstride : Int) + (nx : Int) * (pb.n_channels : Int)
        = ((ny * pb.rowstride + nx * pb.n_channels : Nat) : Int) := by push_cast; ring
    rw [e, Int.toNat_ofNat]
    exact this
  exact getElem?_set_rgb pb.pixels _ j r g b hlen

/-- C14: on a well-formed image, `paint_pixel` at an in-bounds `(x, y)` returns, sets the
three bytes at `y * rowstride + x * n_channels + k`, `k = 0, 1, 2`, to the selected
colour and leaves every other byte (the alpha byte at `k = 3`, other pixels, row padding)
as it was; at an out-of-bounds `(x, y)` it returns the state unchanged.  The same holds
for the clipped write of each pixel in the stamp loop, and the whole stamp loop changes
no byte outside the three colour bytes of the pixels it writes. -/
theorem pixel_writes_touch_rgb_only (pb : Pixbuf) (hwf : pb.wf) :
    (∀ (s : AppData) (x y : Int), s.pixbuf = some pb →
      (x ≥ 0 ∧ y ≥ 0 ∧ x < pb.width ∧ y < pb.height) →
      ∃ q, paint_pixel s x y = some { s with pixbuf := some q } ∧ SameShape pb q ∧
        ∀ j : Nat, q.pixels[j]? =
          if j = (y * pb.rowstride + x * pb.n_channels).toNat then some s.selected_r
          else if j = (y * pb.rowstride + x * pb.n_channels).toNat + 1 then some s.selected_g
          else if j = (y * pb.rowstride + x * pb.n_channels).toNat + 2 then some s.selected_b
          else pb.pixels[j]?) ∧
    (∀ (s : AppData) (x y : Int), s.pixbuf = some pb →
      ¬ (x ≥ 0 ∧ y ≥ 0 ∧ x < pb.width ∧ y < pb.height) → paint_pixel s x y = some s) ∧
    (∀ (nx ny : Int) (r g b : Byte), (nx ≥ 0 ∧ ny ≥ 0 ∧ nx < pb.width ∧ ny < pb.height) →
      ∃ q, stamp_pixel pb nx ny r g b = some q ∧ SameShape pb q ∧
        ∀ j : Nat, q.pixels[j]? =
          if j = (ny * pb.rowstride + nx * pb.n_channels).toNat then some r
          else if j = (ny * pb.rowstride + nx * pb.n_channels).toNat + 1 then some g
          else if j = (ny * pb.rowstride + nx * pb.n_channels).toNat + 2 then some b
          else pb.pixels[j]?) ∧
    (∀ (nx ny : Int) (r g b : Byte), ¬ (nx ≥ 0 ∧ ny ≥ 0 ∧ nx < pb.width ∧ ny < pb.height) →
      stamp_pixel pb nx ny r g b = some pb) ∧
    (∀ (px py radius : Int) (r g b : Byte),
      ∃ q, stamp_loop pb px py radius r g b = some q ∧ SameShape pb q ∧
        ∀ j : Nat,
          (∀ t, t ∈ stamp_targets pb px py radius → ∀ k : Nat, k ≤ 2 →
            j ≠ (t.2 * pb.rowstride + t.1 * pb.n_channels).toNat + k) →
          q.pixels[j]? = pb.pixels[j]?) := by
  refine ⟨?_, ?_, ?_, ?_, ?_⟩
  · intro s x y hp hin
    obtain ⟨q, e, hs, hb⟩ := stamp_pixel_bytes pb hwf x y s.selected_r s.selected_g
      s.selected_b hin
    refine ⟨q, ?_, hs, hb⟩
    rw [paint_pixel_eq_stamp_pixel s pb x y hp, e]
    rfl
  · intro s x y hp hout
    rw [paint_pixel_eq_stamp_pixel s pb x y hp, stamp_pixel_oob pb x y _ _ _ hout]
    simp only [Option.map_some']
    rw [← hp]
  · intro nx ny r g b hin
    exact stamp_pixel_bytes pb hwf nx ny r g b hin
  · intro nx ny r g b hout
    exact stamp_pixel_oob pb nx ny r g b hout
  · intro px py radius r g b
    refine ⟨_, stamp_loop_eq_writes pb hwf px py radius r g b,
      ⟨rfl, rfl, rfl, rfl, foldl_write_rgb_length _ _ _ _ _ _ _⟩, ?_⟩
    intro j hj
    exact foldl_write_rgb_frame pb.rowstride pb.n_channels r g b j _ pb.pixels hj

theorem pixel_writes_touch_rgb_only_witness :
    img2.wf ∧ (session2 false true).pixbuf = some img2 ∧
    ∃ q, paint_pixel (session2 false true) 1 0
        = some { session2 false true with pixbuf := some q } ∧
      q.pixels[3]? = some 7 ∧ q.pixels[4]? = some 7 ∧ q.pixels[5]? = some 7 ∧
      q.pixels[2]? = img2.pixels[2]? ∧ q.pixels[6]? = img2.pixels[6]? := by
  refine ⟨by decide, rfl, ?_⟩
  obtain ⟨q, e, _, hb⟩ := (pixel_writes_touch_rgb_only img2 (by decide)).1
    (session2 false true) 1 0 rfl (by decide)
  have e0 : ((0 : Int) * (img2.rowstride : Int) + 1 * (img2.n_channels : Int)).toNat = 3 := by
    decide
  rw [e0] at hb
  refine ⟨q, e, ?_, ?_, ?_, ?_, ?_⟩
  · rw [hb 3]; rfl
  · rw [hb 4]; rfl
  · rw [hb 5]; rfl
  · rw [hb 2]; rfl
  · rw [hb 6]; rfl

end A5
